import Mathlib

/-!
Verification of the atomic-data core of ProDy (`prody/atomic.py`).

The Python module is shallowly embedded: the columnar attribute store
(`AtomGroup`), its views (`AtomSubset`/`Selection`, `AtomMap`), the
hierarchical index builder (`HierView.update`) and the persistence boundary
(`saveAtoms`/`loadAtoms`) are translated into executable Lean definitions,
and the behavioural properties of the specification are proved about those
definitions.  NumPy arrays become lists; a coordinate row (shape `(3,)`,
float) becomes a triple of rationals; raised Python exceptions become
`Except.error`; `None` becomes `Option.none`.  Timestamp bookkeeping
(`time.time()`) is omitted throughout: no verified property mentions it.
-/

namespace ProDyAtomic

/-- The element types a data array may carry (`bool`, `int`, `float`, or a
fixed-width string dtype such as `|S6`).  Float scalars are modelled as
rationals: the verified properties only move float values around and compare
them bit-exact, they never do float arithmetic. -/
inductive Dtype where
  | dbool : Dtype
  | dint : Dtype
  | dflt : Dtype
  | dstr : Dtype
deriving DecidableEq, Repr

/-- A scalar element of an atomic data array. -/
inductive AVal where
  | abool : Bool → AVal
  | aint : Int → AVal
  | aflt : Rat → AVal
  | astr : String → AVal
deriving DecidableEq, Repr

/-- The dtype of a scalar element. -/
def AVal.dtypeOf : AVal → Dtype
  | .abool _ => .dbool
  | .aint _ => .dint
  | .aflt _ => .dflt
  | .astr _ => .dstr

/-- The value `np.zeros(..., dtype)` puts in every slot: `0`, `0.0`,
`False`, or the empty string. -/
def Dtype.zeroVal : Dtype → AVal
  | .dbool => .abool false
  | .dint => .aint 0
  | .dflt => .aflt 0
  | .dstr => .astr ""

/-- One coordinate row: shape `(3,)`, float. -/
abbrev Coord : Type := Rat × Rat × Rat

/-- The zero coordinate row produced by `np.zeros((len, 3), float)`. -/
def zeroCoord : Coord := (0, 0, 0)

/-- `Field` (atomic.py lines 127-226): immutable descriptor of one built-in
attribute.  Only the members the verified properties touch are kept: the
selection name, the dtype, the internal variable name (`var`), the array
rank (`ndim`) and the optional synonym. -/
structure Field where
  fname : String
  dtype : Dtype
  var : String
  ndim : Nat
  synonym : Option String
deriving DecidableEq, Repr

/-- `ATOMIC_DATA_FIELDS` (atomic.py lines 228-283), with each entry's `var`
resolved (default `name + 's'`). -/
def ATOMIC_DATA_FIELDS : List Field :=
  [⟨"name", .dstr, "names", 1, none⟩,
   ⟨"altloc", .dstr, "altlocs", 1, none⟩,
   ⟨"anisou", .dflt, "anisous", 2, none⟩,
   ⟨"chain", .dstr, "chids", 1, some "chid"⟩,
   ⟨"element", .dstr, "elements", 1, none⟩,
   ⟨"hetero", .dbool, "heteros", 1, none⟩,
   ⟨"occupancy", .dflt, "occupancies", 1, none⟩,
   ⟨"resname", .dstr, "resnames", 1, none⟩,
   ⟨"resnum", .dint, "resnums", 1, some "resid"⟩,
   ⟨"secondary", .dstr, "secondarys", 1, some "secstr"⟩,
   ⟨"segment", .dstr, "segments", 1, some "segname"⟩,
   ⟨"siguij", .dflt, "siguijs", 2, none⟩,
   ⟨"serial", .dint, "serials", 1, none⟩,
   ⟨"beta", .dflt, "betas", 1, none⟩,
   ⟨"icode", .dstr, "icodes", 1, none⟩,
   ⟨"type", .dstr, "types", 1, none⟩,
   ⟨"charge", .dflt, "charges", 1, none⟩,
   ⟨"mass", .dflt, "masses", 1, none⟩,
   ⟨"radius", .dflt, "radii", 1, none⟩]

/-- The key set of `ATOMIC_ATTRIBUTES` (atomic.py lines 285-287): the
internal variable names of the built-in fields. -/
def fieldVars : List String := ATOMIC_DATA_FIELDS.map Field.var

/-- The columnar store `AtomGroup` (atomic.py lines 708-768).  `oid` models
Python object identity: `Atomic.__eq__` compares two `AtomGroup` objects by
`self is other`, and distinct live objects have distinct ids.  `_data` is a
Python dict mapping variable names to arrays, with unset built-in fields
held as `None`; it is modelled as the association list of its *set* entries
(`getData`/`isData`/`saveAtoms` all treat an absent key and a `None` value
identically).  `trajectory` keeps only the presence of a binding, the lock
flag that `addCoordset`/`delCoordset` test.  The serial index cache `_sn2i`
and the cached hierarchical view `_hv` are omitted together with the
timestamps: `_sn2i` can never be populated (see `buildSN2I` below) and no
verified property reads `_hv`. -/
structure AtomGroup where
  oid : Nat
  title : String
  n_atoms : Nat
  coordinates : Option (List (List Coord))
  n_csets : Nat
  cslabels : Option (List (Option String))
  acsi : Option Nat
  data : List (String × List AVal)
  trajectory : Bool
deriving DecidableEq, Repr

/-- A fresh store, `AtomGroup.__init__` (atomic.py lines 750-768). -/
def AtomGroup.init (oid : Nat) (title : String) : AtomGroup :=
  { oid := oid, title := title, n_atoms := 0, coordinates := none,
    n_csets := 0, cslabels := some [], acsi := none, data := [],
    trajectory := false }

/-- Store a value in a Python dict modelled as an association list:
overwrite in place when the key exists, append otherwise. -/
def dictSet {β : Type} (d : List (String × β)) (k : String) (v : β) :
    List (String × β) :=
  if (d.lookup k).isSome then
    d.map (fun p => if p.1 = k then (k, v) else p)
  else
    d ++ [(k, v)]

/-- `AtomGroup.numAtoms` (atomic.py line 934). -/
def AtomGroup.numAtoms (ag : AtomGroup) : Nat := ag.n_atoms

/-- `AtomGroup.numCoordsets` (atomic.py line 1143). -/
def AtomGroup.numCoordsets (ag : AtomGroup) : Nat := ag.n_csets

/-- `AtomGroup._getData`/`getData` lookup of the `_data` dict (atomic.py
lines 1409-1429); a copy and the live array are the same value here. -/
def AtomGroup.getData (ag : AtomGroup) (label : String) : Option (List AVal) :=
  ag.data.lookup label

/-- `AtomGroup.isData` (atomic.py lines 1437-1442). -/
def AtomGroup.isData (ag : AtomGroup) (label : String) : Bool :=
  (ag.data.lookup label).isSome

/-- Well-formedness of the coordinate stack, the invariant the Python class
maintains: when `_coordinates` is set it holds `_n_csets ≥ 1` sets of
`_n_atoms` rows each and `_acsi` indexes into it, and `_cslabels` is a list
with one label per set; when it is `None`, `_n_csets = 0`. -/
def AtomGroup.CoordsWF (ag : AtomGroup) : Prop :=
  match ag.coordinates with
  | none => ag.n_csets = 0
  | some css =>
      css.length = ag.n_csets ∧ 0 < ag.n_csets ∧
      (∀ cs ∈ css, cs.length = ag.n_atoms) ∧
      (∃ i, ag.acsi = some i ∧ i < ag.n_csets) ∧
      (∃ ls, ag.cslabels = some ls ∧ ls.length = ag.n_csets)

/-- The argument of `setCoords`/`addCoordset`: an `(n, 3)` array (one
coordinate set) or a `(k, n, 3)` array (a stack of sets). -/
inductive CoordInput where
  | single : List Coord → CoordInput
  | stack : List (List Coord) → CoordInput
deriving DecidableEq, Repr

/-- Modelled from the spec: `checkCoords` lives in the `tools` module, which
is not part of this repository's sources.  Spec section 4.1: `setCoordinates`
"accepts a (`n`,3) array … or a (`k`,`n`,3) array", and "fails with a
shape/type error if `n` is already fixed and the supplied array's entity
dimension disagrees"; the call sites pass `cset=True, n_atoms, reshape=True`,
so a single set is reshaped to a stack of one.  A `(k,n,3)` argument must be
a rectangular, non-empty ndarray: every set has the same number of rows and
`k ≥ 1`. -/
def checkCoords (coords : CoordInput) (n_atoms : Nat) :
    Except String (List (List Coord)) :=
  match coords with
  | .single cs =>
      if n_atoms ≠ 0 ∧ cs.length ≠ n_atoms then
        .error "coords must have shape (n_atoms, 3)"
      else
        .ok [cs]
  | .stack css =>
      match css with
      | [] => .error "coords must be a 2d or 3d array"
      | cs :: rest =>
          if ¬ (∀ c ∈ rest, c.length = cs.length) then
            .error "coords must be a 2d or 3d array"
          else if n_atoms ≠ 0 ∧ cs.length ≠ n_atoms then
            .error "coords must have shape (n_csets, n_atoms, 3)"
          else
            .ok (cs :: rest)

/-- `AtomGroup.setCoords` with `label=None` (atomic.py lines 965-1037).
With no label argument all the label branches either write
`[None] * n_csets` or leave `_cslabels` alone, which is what is embedded. -/
def AtomGroup.setCoords (ag : AtomGroup) (coords : CoordInput) :
    Except String AtomGroup :=
  match checkCoords coords ag.n_atoms with
  | .error e => .error e
  | .ok css =>
      -- if self._n_atoms == 0: self._n_atoms = coordinates.shape[-2]
      let n_atoms := if ag.n_atoms = 0 then (css.headI).length else ag.n_atoms
      match ag.coordinates with
      | none =>
          .ok { ag with n_atoms := n_atoms, coordinates := some css,
                        n_csets := css.length, acsi := some 0,
                        cslabels := some (List.replicate css.length none) }
      | some old =>
          match css with
          | [cs] =>
              -- shape (1, n, 3): overwrite the active coordinate set in place
              let i := ag.acsi.getD 0
              .ok { ag with n_atoms := n_atoms,
                            coordinates := some (old.set i cs) }
          | _ =>
              -- shape (k, n, 3), k ≠ 1: replace the whole stack
              .ok { ag with n_atoms := n_atoms, coordinates := some css,
                            n_csets := css.length,
                            acsi := some (min (css.length - 1) (ag.acsi.getD 0)),
                            cslabels := some (List.replicate css.length none) }

/-- `AtomGroup.getCoords` (atomic.py lines 945-950): a copy of the active
coordinate set, `None` when no coordinates are set. -/
def AtomGroup.getCoords (ag : AtomGroup) : Option (List Coord) :=
  match ag.coordinates with
  | none => none
  | some css => some (css.getD (ag.acsi.getD 0) [])

/-- `AtomGroup.addCoordset` with `label=None` (atomic.py lines 1040-1082):
refuse when trajectory-locked, delegate to `setCoords` when no coordinates
exist yet, otherwise append the checked stack and extend the labels by
`[None] * diff`.  (The `Ensemble`/`Atomic` coercion of the argument belongs
to the external trajectory modules and is not embedded.) -/
def AtomGroup.addCoordset (ag : AtomGroup) (coords : CoordInput) :
    Except String AtomGroup :=
  if ag.trajectory then
    .error "AtomGroup is locked for coordinate set addition/deletion"
  else
    match ag.coordinates with
    | none => ag.setCoords coords
    | some old =>
        match checkCoords coords ag.n_atoms with
        | .error e => .error e
        | .ok css =>
            .ok { ag with coordinates := some (old ++ css),
                          n_csets := old.length + css.length,
                          cslabels := some ((ag.cslabels.getD []) ++
                                        List.replicate css.length none) }

/-- `AtomGroup.delCoordset` (atomic.py lines 1084-1107).  The boolean mask
`which` with `which[index] = False` selects every set except `index`, so the
surviving stack is `eraseIdx index`; `which[index]` raises `IndexError` when
`index` is out of range (nonnegative indices are embedded). -/
def AtomGroup.delCoordset (ag : AtomGroup) (index : Nat) :
    Except String AtomGroup :=
  if ag.n_csets = 0 then
    .error "coordinates are not set"
  else if ag.trajectory then
    .error "AtomGroup is locked for coordinate set addition/deletion"
  else if index < ag.n_csets then
    let css := (ag.coordinates.getD []).eraseIdx index
    if css.length = 0 then
      .ok { ag with coordinates := none, n_csets := 0, acsi := none,
                    cslabels := none }
    else
      .ok { ag with coordinates := some css, n_csets := css.length,
                    acsi := some 0,
                    cslabels := some ((ag.cslabels.getD []).eraseIdx index) }
  else
    .error "index out of bounds"

/-- The body of the data loop of `AtomGroup.__add__` (atomic.py lines
869-874): `new._data[var]` is assigned the concatenation exactly when both
operands have the field set. -/
def mergeDataStep (a b : AtomGroup) (acc : List (String × List AVal))
    (f : Field) : List (String × List AVal) :=
  match a.data.lookup f.var, b.data.lookup f.var with
  | some this, some that => dictSet acc f.var (this ++ that)
  | _, _ => acc

/-- The data loop of `AtomGroup.__add__`, run over `ATOMIC_DATA_FIELDS`
starting from the fresh group's empty data dict. -/
def mergeFieldData (a b : AtomGroup) : List (String × List AVal) :=
  ATOMIC_DATA_FIELDS.foldl (mergeDataStep a b) []

/-- `AtomGroup.__add__` for two atom groups (atomic.py lines 851-875);
`new_oid` is the identity of the freshly created result object.
`self == other` is `Atomic.__eq__`, which for two `AtomGroup` objects is
`self is other`, i.e. equality of object ids.  When the operands' set counts
differ, `n_coordsets` is forced to `1` with a warning; the first
`n_coordsets` sets of both stacks are then concatenated along the atom
axis.  `self._coordinates[coordset_range]` raises `TypeError` when
`_coordinates` is `None`; indexing past the end of a stack would raise
`IndexError` in NumPy, which the embedding totalises with `getD` — it is
unreachable for well-formed operands, where `n_coordsets` never exceeds
either stack's length. -/
def AtomGroup.add (a b : AtomGroup) (new_oid : Nat) : Except String AtomGroup :=
  if a.oid = b.oid then
    .error "an atom group cannot be added to itself"
  else
    match a.coordinates, b.coordinates with
    | some ca, some cb =>
        let n_coordsets := if a.n_csets ≠ b.n_csets then 1 else a.n_csets
        let merged := (List.range n_coordsets).map
          (fun i => ca.getD i [] ++ cb.getD i [])
        match (AtomGroup.init new_oid (a.title ++ " + " ++ b.title)).setCoords
            (.stack merged) with
        | .error e => .error e
        | .ok fresh => .ok { fresh with data := mergeFieldData a b }
    | _, _ => .error "TypeError: NoneType object is not subscriptable"

/-- Insert a value into a sorted duplicate-free list, keeping it sorted and
duplicate-free. -/
def insUnique (x : Nat) : List Nat → List Nat
  | [] => [x]
  | y :: ys =>
      if x < y then x :: y :: ys
      else if x = y then y :: ys
      else y :: insUnique x ys

/-- `np.unique`: the sorted list of the distinct values of an array. -/
def npUnique (l : List Nat) : List Nat := l.foldr insUnique []

/-- `AtomSubset` (atomic.py lines 2088-2121): a reference to an `AtomGroup`,
a set of atom indices and an active coordinate-set index.  `acsi` carries
the value `AtomPointer.__init__` resolves (the argument, or the group's
index when the argument is `None`). -/
structure AtomSubset where
  ag : AtomGroup
  indices : List Nat
  acsi : Nat
deriving DecidableEq, Repr

/-- `AtomSubset.__init__` (atomic.py lines 2100-2121): the index array is
passed through `np.unique` unless the `unique` keyword argument is set. -/
def AtomSubset.ofIndices (ag : AtomGroup) (indices : List Nat) (acsi : Nat)
    (uniq : Bool) : AtomSubset :=
  ⟨ag, if uniq then indices else npUnique indices, acsi⟩

/-- The `Selection(ag, indices, selstr, acsi)` constructor as called by the
set operations: no `unique` keyword, so `np.unique` is applied again. -/
def mkSelection (ag : AtomGroup) (indices : List Nat) (acsi : Nat) :
    AtomSubset :=
  AtomSubset.ofIndices ag indices acsi false

/-- `AtomSubset.__or__` (atomic.py lines 2143-2161).  `self._ag != other._ag`
is `Atomic.__ne__`, object identity for atom groups, hence `oid` equality;
on an ACSI mismatch the result's ACSI falls back to 0 with a warning.  The
`self is other` fast path returns `self` itself — physical identity is not
representable on values, and for a subset built by the constructor the fast
path returns the same index set as the general path, so the embedding keeps
only the general path.  (The `isinstance(other, Atom)` test inside is dead
code: an `Atom` is never an `AtomSubset`.) -/
def AtomSubset.union (a b : AtomSubset) : Except String AtomSubset :=
  if a.ag.oid ≠ b.ag.oid then
    .error "both selections must be from the same AtomGroup"
  else
    let acsi := if a.acsi ≠ b.acsi then 0 else a.acsi
    .ok (mkSelection a.ag (npUnique (a.indices ++ b.indices)) acsi)

/-- `AtomSubset.__and__` (atomic.py lines 2163-2189).  The Python body takes
`set(self._indices).intersection(set(other._indices))`; when the
intersection is empty the function falls through and returns `None`,
otherwise it returns a `Selection` on `np.unique` of the intersection.
The set intersection followed by `np.unique` is embedded as `npUnique` of
the order-preserving filter — both denote the sorted duplicate-free list of
the common values. -/
def AtomSubset.inter (a b : AtomSubset) : Except String (Option AtomSubset) :=
  if a.ag.oid ≠ b.ag.oid then
    .error "both selections must be from the same AtomGroup"
  else
    let acsi := if a.acsi ≠ b.acsi then 0 else a.acsi
    let indices := a.indices.filter (fun x => x ∈ b.indices)
    if indices = [] then
      .ok none
    else
      .ok (some (mkSelection a.ag (npUnique indices) acsi))

/-- `AtomSubset.__invert__` (atomic.py lines 2134-2141):

    arange = range(self._ag.numAtoms())
    indices = list(self._indices)
    while indices: arange.pop(indices.pop())

Each iteration pops the *last* remaining index and removes that position
from `arange`, so the loop is a left fold of `eraseIdx` over the reversed
index list; the result is wrapped in a `Selection` (which re-applies
`np.unique`). -/
def AtomSubset.invert (s : AtomSubset) : AtomSubset :=
  let arange := s.indices.reverse.foldl (fun ar j => ar.eraseIdx j)
    (List.range s.ag.n_atoms)
  mkSelection s.ag arange s.acsi

/-- NumPy fancy indexing `arr[idxs]`: the values at the given positions,
`None` standing for the `IndexError` raised on an out-of-range position. -/
def npIndexList {α : Type} (arr : List α) : List Nat → Option (List α)
  | [] => some []
  | i :: is =>
      match arr[i]?, npIndexList arr is with
      | some v, some rest => some (v :: rest)
      | _, _ => none

/-- NumPy fancy assignment `base[positions] = vals` with equally long
position and value arrays (the call sites guarantee this; NumPy raises
otherwise): later writes to a repeated position win. -/
def npSetAt {α : Type} (base : List α) (positions : List Nat)
    (vals : List α) : List α :=
  (positions.zip vals).foldl (fun acc pv => acc.set pv.1 pv.2) base

/-- `AtomMap` (atomic.py lines 2650-2704): a reference to an `AtomGroup`, a
possibly-duplicated index array, an output `mapping`, the `unmapped` slot
list, a title and an active coordinate-set index.  `_len` is assigned once
in `__init__` as `len(unmapped) + len(mapping)` and the two arrays are never
reassigned, so it is kept as the derived value `AtomMap.len`. -/
structure AtomMap where
  ag : AtomGroup
  indices : List Nat
  mapping : List Nat
  unmapped : List Nat
  title : String
  acsi : Nat
deriving DecidableEq, Repr

/-- `self._len` (atomic.py line 2704). -/
def AtomMap.len (am : AtomMap) : Nat :=
  am.unmapped.length + am.mapping.length

/-- `AtomMap.numAtoms` (atomic.py line 2785). -/
def AtomMap.numAtoms (am : AtomMap) : Nat := am.len

/-- `AtomMap.numMapped` (atomic.py line 2807). -/
def AtomMap.numMapped (am : AtomMap) : Nat := am.mapping.length

/-- `AtomMap.numUnmapped` (atomic.py line 2796). -/
def AtomMap.numUnmapped (am : AtomMap) : Nat := am.unmapped.length

/-- The per-field getter `AtomMapMeta` installs on `AtomMap` (atomic.py
lines 2616-2623): `None` when the store does not have the field, otherwise
`np.zeros((len,) + ..., field.dtype)` with the store's values at `indices`
scattered to the `mapping` positions.  (The docstring generated next to it
at lines 2626-2633 advertises `True` as the filler for boolean fields, but
`np.zeros` fills with `False`.) -/
def AtomMap.getFieldData (am : AtomMap) (f : Field) :
    Except String (Option (List AVal)) :=
  match am.ag.data.lookup f.var with
  | none => .ok none
  | some array =>
      match npIndexList array am.indices with
      | none => .error "index out of range"
      | some data =>
          .ok (some (npSetAt (List.replicate am.len f.dtype.zeroVal)
            am.mapping data))

/-- The dtype a NumPy array reports.  Arrays built by `setData` are
homogeneous; the embedding reads the dtype off the first element (the
theorems assume a homogeneous non-empty array). -/
def npDtype (arr : List AVal) : Dtype :=
  match arr with
  | [] => .dflt
  | v :: _ => v.dtypeOf

/-- `AtomMap.getData` (atomic.py lines 2744-2753): like the per-field
getter, but for any stored label and with the zero filler taken from
`data.dtype` — slicing preserves the stored array's dtype, so this is the
dtype of the stored array. -/
def AtomMap.getData (am : AtomMap) (label : String) :
    Except String (Option (List AVal)) :=
  match am.ag.data.lookup label with
  | none => .ok none
  | some array =>
      match npIndexList array am.indices with
      | none => .error "index out of range"
      | some data =>
          .ok (some (npSetAt (List.replicate am.len (npDtype array).zeroVal)
            am.mapping data))

/-- `AtomMap.getCoords` (atomic.py lines 2840-2848): `None` when the store
has no coordinates, otherwise `np.zeros((len, 3), float)` with the active
set's rows at `indices` scattered to the `mapping` positions. -/
def AtomMap.getCoords (am : AtomMap) : Except String (Option (List Coord)) :=
  match am.ag.coordinates with
  | none => .ok none
  | some css =>
      match css[am.acsi]? with
      | none => .error "index out of range"
      | some cs =>
          match npIndexList cs am.indices with
          | none => .error "index out of range"
          | some rows =>
              .ok (some (npSetAt (List.replicate am.len zeroCoord)
                am.mapping rows))

/-- `AtomGroup._buildSN2I` (atomic.py lines 887-899).  Its first statement
is `serials = self._serials`.  `AtomGroup.__slots__` (lines 744-748)
declares no `_serials` slot, no code ever assigns one, and the serial
numbers actually live in `self._data['serials']`; under `__slots__` the
attribute lookup therefore raises `AttributeError` before any of the
function's checks can run (`Atomic.__getattribute__` re-raises it: the
first underscore-split component of `'_serials'` is the empty string, which
is no selection keyword).  The function's own `None` check and docstring
show the intent was the serial-number data array; the faithful embedding of
the shipped code is the unconditional error. -/
def AtomGroup.buildSN2I (_ag : AtomGroup) : Except String (List Int) :=
  .error "AtomGroup object has no attribute _serials"

/-- `AtomGroup._getSN2I` (atomic.py lines 901-904): return the cached
serial→index array, building it first when absent.  The `_sn2i` cache
starts as `None` and `_buildSN2I` — its only writer — always raises before
assigning it, so the cache is never populated and every call builds. -/
def AtomGroup.getSN2I (ag : AtomGroup) : Except String (List Int) :=
  ag.buildSN2I

/-- `AtomGroup.getBySerial` with `stop=None` (atomic.py lines 1444-1464):
after rejecting a negative serial it asks `_getSN2I` for the lookup array
and returns the atom index stored under the serial, `None` when the slot is
out of range or holds the sentinel `-1`. -/
def AtomGroup.getBySerial (ag : AtomGroup) (serial : Int) :
    Except String (Option Nat) :=
  if serial < 0 then
    .error "serial must be greater than or equal to zero"
  else
    match ag.getSN2I with
    | .error e => .error e
    | .ok sn2i =>
        match sn2i[serial.toNat]? with
        | some index => if index ≠ -1 then .ok (some index.toNat) else .ok none
        | none => .ok none

/-- `AtomGroup.getCSLabels` (atomic.py lines 1589-1595): a copy of the
coordinate-set labels, `None` when there are no coordinate sets. -/
def AtomGroup.getCSLabels (ag : AtomGroup) : Option (List (Option String)) :=
  if ag.n_csets ≠ 0 then some (ag.cslabels.getD []) else none

/-- `AtomGroup.setCSLabels` (atomic.py lines 1597-1613).  The argument is
already a list whose items are strings or `None`, so only the length check
can fail. -/
def AtomGroup.setCSLabels (ag : AtomGroup) (labels : List (Option String)) :
    Except String AtomGroup :=
  if labels.length = ag.n_csets then
    .ok { ag with cslabels := some labels }
  else
    .error "length of labels must be equal to number of coordinate sets"

/-- The label with underscores and whitespace removed:
`''.join((''.join(label.split('_'))).split())` from `setData`. -/
def labelCore (label : String) : String :=
  String.mk (label.data.filter (fun c => ¬ (c = '_' ∨ c.isWhitespace)))

/-- Modelled from the spec: `prody.select.isReserved` belongs to the
selection module, which is not part of this repository's sources.  Spec
section 3: a user label must "not collide with a reserved/selection
keyword"; the selection keywords recoverable from this repository are the
field names and synonyms registered in `ATOMIC_DATA_FIELDS`, so the
reserved set is modelled as exactly those. -/
def isReservedWord (label : String) : Bool :=
  (ATOMIC_DATA_FIELDS.map Field.fname).contains label ||
  (ATOMIC_DATA_FIELDS.filterMap Field.synonym).contains label

/-- `AtomGroup.setData` (atomic.py lines 1332-1384): validate the label
(non-empty, leading letter, only alphanumerics/underscore after stripping,
not reserved) and the array length, then store the array by reference.  The
dtype check (`float`, `int`, `bool` or fixed-width string) always passes
here because `AVal` can hold exactly those four element types. -/
def AtomGroup.setData (ag : AtomGroup) (label : String) (data : List AVal) :
    Except String AtomGroup :=
  if label = "" then
    .error "label cannot be empty string"
  else if ¬ label.front.isAlpha then
    .error "label must start with a letter"
  else if ¬ (labelCore label ≠ "" ∧ (labelCore label).data.all Char.isAlphanum) then
    .error "label may contain alphanumeric characters and underscore"
  else if isReservedWord label then
    .error "label cannot be a reserved word or a selection keyword"
  else if data.length ≠ ag.n_atoms then
    .error "length of data array must match number of atoms"
  else
    .ok { ag with data := dictSet ag.data label data }

/-- The conjunction of `setData`'s label checks, used as a hypothesis. -/
def ValidDataLabel (label : String) : Prop :=
  label ≠ "" ∧ label.front.isAlpha = true ∧ labelCore label ≠ "" ∧
  (labelCore label).data.all Char.isAlphanum = true ∧
  isReservedWord label = false

instance : DecidablePred ValidDataLabel := fun label => by
  unfold ValidDataLabel
  infer_instance

/-- One entry of the `.ag.npz` archive written by `np.savez`: the store id
strings, the integer counts, a 1-d data array, the coordinate stack, or the
coordinate-set label list (`None` — a pickled 0-d entry — when the store
had no coordinate sets). -/
inductive ArchiveVal where
  | vstr : String → ArchiveVal
  | vnat : Nat → ArchiveVal
  | varr : List AVal → ArchiveVal
  | vcoords : List (List Coord) → ArchiveVal
  | vcslabels : Option (List (Option String)) → ArchiveVal
deriving DecidableEq, Repr

/-- `SKIP` (atomic.py lines 3181-3182). -/
def SKIP : List String :=
  ["_name", "_title", "title", "n_atoms", "n_csets", "coordinates",
   "_coordinates", "cslabels"]

/-- `saveAtoms` on an `AtomGroup` (atomic.py lines 3141-3179): build the
`attr_dict` mapping — title, atom count, set count, coordinate-set labels,
the coordinate stack when present, then every set `_data` entry under its
own key (a Python dict assignment, so a data entry whose key collides with
an earlier one overwrites it) — and hand it to `np.savez`. -/
def saveAtoms (ag : AtomGroup) : List (String × ArchiveVal) :=
  let base : List (String × ArchiveVal) :=
    [("title", .vstr ag.title),
     ("n_atoms", .vnat ag.n_atoms),
     ("n_csets", .vnat ag.n_csets),
     ("cslabels", .vcslabels ag.getCSLabels)]
  let base :=
    match ag.coordinates with
    | none => base
    | some css => base ++ [("coordinates", .vcoords css)]
  ag.data.foldl (fun acc kv => dictSet acc kv.1 (.varr kv.2)) base

/-- `str()` of a loaded archive entry (only the string case is ever reached
from `saveAtoms` output under valid labels). -/
def pyStr : ArchiveVal → String
  | .vstr s => s
  | .vnat n => toString n
  | .varr _ => "array"
  | .vcoords _ => "array"
  | .vcslabels _ => "array"

/-- `int()` of a loaded archive entry: the saved integer converts; `int()`
of an `n ≠ 1`-element array raises `TypeError`. -/
def pyInt : ArchiveVal → Except String Nat
  | .vnat n => .ok n
  | _ => .error "int() argument must be a scalar"

/-- `list(attr_dict['cslabels'])`: the saved label list iterates back;
iterating the pickled `None` — a 0-d object array — raises `TypeError`. -/
def pyListCSLabels : ArchiveVal → Except String (List (Option String))
  | .vcslabels (some ls) => .ok ls
  | .vcslabels none => .error "iteration over a 0-d array"
  | _ => .error "invalid cslabels entry"

/-- One step of the `loadAtoms` data loop (atomic.py lines 3225-3231):
skip the structural keys, restore a built-in field by direct `_data`
assignment, restore anything else through `setData`.  A non-array value
under a data key cannot arise from `saveAtoms` and is rejected. -/
def loadDataStep (ag : AtomGroup) (kv : String × ArchiveVal) :
    Except String AtomGroup :=
  if kv.1 ∈ SKIP then
    .ok ag
  else
    match kv.2 with
    | .varr v =>
        if kv.1 ∈ fieldVars then
          .ok { ag with data := dictSet ag.data kv.1 v }
        else
          ag.setData kv.1 v
    | _ => .error "invalid data entry"

/-- `loadAtoms` (atomic.py lines 3184-3237) on an archive, producing the
store object `new_oid`.  The legacy `_coordinates` layout (lines 3197-3218)
predates this repository's `saveAtoms`, which never writes a
`'_coordinates'` key — its four structural keys exclude it and every data
key is either a field variable name or a validated label, neither of which
starts with an underscore — so only the current layout (lines 3219-3235) is
embedded and a legacy archive is reported as outside the verified
persistence boundary. -/
def loadAtoms (archive : List (String × ArchiveVal)) (new_oid : Nat) :
    Except String AtomGroup :=
  let files := archive.map Prod.fst
  if "_coordinates" ∈ files then
    .error "legacy archive layout"
  else if "n_atoms" ∉ files then
    .error "is not a valid atomic data file"
  else
    match archive.lookup "title" with
    | none => .error "KeyError: title"
    | some tv =>
        let ag := AtomGroup.init new_oid (pyStr tv)
        let ag :=
          match archive.lookup "coordinates" with
          | some (.vcoords css) => { ag with coordinates := some css }
          | _ => ag
        match (archive.lookup "n_atoms").elim
                (Except.error "KeyError: n_atoms") pyInt,
              (archive.lookup "n_csets").elim
                (Except.error "KeyError: n_csets") pyInt with
        | .error e, _ => .error e
        | _, .error e => .error e
        | .ok n_atoms, .ok n_csets =>
            let ag := { ag with n_atoms := n_atoms, n_csets := n_csets }
            match archive.foldlM loadDataStep ag with
            | .error e => .error e
            | .ok ag =>
                let ag :=
                  if ag.numCoordsets > 0 then { ag with acsi := some 0 }
                  else ag
                match archive.lookup "cslabels" with
                | none => .ok ag
                | some lv =>
                    match pyListCSLabels lv with
                    | .error e => .error e
                    | .ok ls => ag.setCSLabels ls

/-- One entity as the hierarchical-index builder sees it: its store index
and the values of the chain-id, residue-number and insertion-code fields at
that index. -/
structure HAtom where
  idx : Nat
  chid : String
  resnum : Int
  icode : String
deriving DecidableEq, Repr

/-- A residue key: (residue number, insertion code). -/
abbrev ResKey : Type := Int × String

/-- A (chain-id, residue-number, insertion-code) triple. -/
abbrev Triple : Type := String × Int × String

/-- Association-list lookup with decidable key equality (Python dict /
`OrderedDict` membership on string and tuple keys). -/
def alookup {α β : Type} [DecidableEq α] : List (α × β) → α → Option β
  | [], _ => none
  | (k, v) :: rest, key => if key = k then some v else alookup rest key

/-- The chain pass of `HierView.update` (atomic.py lines 2963-2970):

    prev = None
    for i, chid in enumerate(chids):
        if chid == prev or chid in _chains: continue
        prev = chid
        _chains[chid] = Chain(_indices[i:][chids[i:] == chid], unique=True)

`seen` is the key set of `_chains`; a new chain gathers every later atom
with the same chain id. -/
def chainScan (prev : Option String) (seen : List String) :
    List HAtom → List (String × List HAtom)
  | [] => []
  | a :: rest =>
      if some a.chid = prev ∨ a.chid ∈ seen then
        chainScan prev seen rest
      else
        (a.chid, (a :: rest).filter (fun b => b.chid = a.chid)) ::
          chainScan (some a.chid) (a.chid :: seen) rest

/-- The residue key used inside one chain: `(resnum, icode)`, with the
constant `ic = ''` of the `skip_icodes` fast path (atomic.py lines
2996-2997) when the whole target's insertion codes are empty. -/
def HAtom.rkey (skipIcodes : Bool) (a : HAtom) : ResKey :=
  if skipIcodes then (a.resnum, "") else (a.resnum, a.icode)

/-- The maximal runs of equal residue key along a chain's atom list: the
residue pass of `HierView.update` (atomic.py lines 2990-3052) emits one
dictionary insertion per such run (segment `[start, i)` at each key change,
and the final segment after the loop). -/
def runsBy (key : HAtom → ResKey) : List HAtom → List (ResKey × List HAtom)
  | [] => []
  | a :: rest =>
      match runsBy key rest with
      | [] => [(key a, [a])]
      | (k, run) :: more =>
          if key a = k then (k, a :: run) :: more
          else (key a, [a]) :: (k, run) :: more

/-- Insert the runs into the chain's `OrderedDict` in order (atomic.py
lines 3000-3022 / 3028-3052): a repeated key concatenates onto the existing
residue in place (`np.concatenate((_dict[res]._indices, ...))`), a fresh
key appends. -/
def dictMergeRuns (d : List (ResKey × List HAtom)) :
    List (ResKey × List HAtom) → List (ResKey × List HAtom)
  | [] => d
  | (k, run) :: more =>
      if (alookup d k).isSome then
        dictMergeRuns (d.map (fun p => if p.1 = k then (p.1, p.2 ++ run) else p))
          more
      else
        dictMergeRuns (d ++ [(k, run)]) more

/-- The residues of one chain. -/
def chainResidues (skipIcodes : Bool) (atoms : List HAtom) :
    List (ResKey × List HAtom) :=
  dictMergeRuns [] (runsBy (HAtom.rkey skipIcodes) atoms)

/-- `HierView.update` over an `AtomGroup` whose chain-id, residue-number
and insertion-code fields are set (atomic.py lines 2937-3052), acting on
the zipped per-atom records.  `skip_icodes` is taken exactly when every
insertion code is the empty string (when the icode field is unset the
source zero-fills it with `''`, which is the same situation). -/
def hierView (atoms : List HAtom) :
    List (String × List (ResKey × List HAtom)) :=
  let skipIcodes := atoms.all (fun a => a.icode = "")
  (chainScan none [] atoms).map
    (fun c => (c.1, chainResidues skipIcodes c.2))

/-- `HierView.numResidues` (atomic.py lines 3109-3112): the sum of the
chains' residue counts. -/
def hierNumResidues (hv : List (String × List (ResKey × List HAtom))) : Nat :=
  (hv.map (fun c => c.2.length)).sum

/-- `HierView.getResidue` (atomic.py lines 3094-3101) composed with
`Residue.getIndices`: the member store indices of the residue with the
given chain id, residue number and insertion code. -/
def hierGetResidue (hv : List (String × List (ResKey × List HAtom)))
    (chid : String) (resnum : Int) (icode : String) : Option (List Nat) :=
  (alookup hv chid).bind
    (fun rns => (alookup rns (resnum, icode)).map
      (fun atoms => atoms.map HAtom.idx))

/-- The `m` consecutive atoms of one (chain-id, resnum, icode) block
starting at store index `off`. -/
def blockAtoms (off : Nat) (t : Triple) (m : Nat) : List HAtom :=
  (List.range m).map (fun j => ⟨off + j, t.1, t.2.1, t.2.2⟩)

/-- A store pre-ordered into contiguous runs per triple: the concatenation
of its blocks, with consecutive store indices from `off` on. -/
def expandFrom (off : Nat) : List (Triple × Nat) → List HAtom
  | [] => []
  | (t, m) :: rest => blockAtoms off t m ++ expandFrom (off + m) rest

/-- The store index at which the (unique) block with triple `t` starts. -/
def offsetOf : List (Triple × Nat) → Triple → Nat
  | [], _ => 0
  | (t', m) :: rest, t => if t' = t then 0 else m + offsetOf rest t

/-- The residue segments a chain with id `c` receives from the blocks:
key and member atoms of every `c`-block, in order. -/
def csegs (off : Nat) (c : String) :
    List (Triple × Nat) → List (ResKey × List HAtom)
  | [] => []
  | (t, m) :: rest =>
      if t.1 = c then
        ((t.2.1, t.2.2), blockAtoms off t m) :: csegs (off + m) c rest
      else
        csegs (off + m) c rest

/-! Concrete stores used by the witnesses. -/

/-- Blocks for the hierarchy witness: chain A residues 10 and 11, chain B
residue 10, then chain A again with residue 12 insertion code X — chains
interleaved, so the second chain-A run is merged back into the existing
chain, and one insertion code is non-empty, so the `skip_icodes` fast path
is off. -/
def C6blocks : List (Triple × Nat) :=
  [(("A", 10, ""), 2), (("A", 11, ""), 1), (("B", 10, ""), 3),
   (("A", 12, "X"), 2)]

/-- A store with two atoms and no coordinate sets. -/
def agNoCoords : AtomGroup :=
  { AtomGroup.init 1 "demo" with n_atoms := 2 }

/-- A store with two atoms and two coordinate sets, the second one active. -/
def agTwoSets : AtomGroup :=
  { AtomGroup.init 2 "demo2" with
      n_atoms := 2,
      coordinates := some [[(1, 0, 0), (0, 1, 0)], [(2, 0, 0), (0, 2, 0)]],
      n_csets := 2, acsi := some 1, cslabels := some [none, none] }

/-- `agTwoSets` with a trajectory bound. -/
def agLockedTwoSets : AtomGroup :=
  { agTwoSets with oid := 3, trajectory := true }

/-- A five-atom store (no coordinates are needed for index-set algebra). -/
def agFive : AtomGroup :=
  { AtomGroup.init 4 "five" with n_atoms := 5 }

/-- The subset `{0, 1, 2}` of `agFive`. -/
def selA : AtomSubset := AtomSubset.ofIndices agFive [0, 1, 2] 0 false

/-- The subset `{2, 3, 4}` of `agFive`. -/
def selB : AtomSubset := AtomSubset.ofIndices agFive [2, 3, 4] 0 false

/-- The subset `{1, 3}` of `agFive`. -/
def selC : AtomSubset := AtomSubset.ofIndices agFive [1, 3] 0 false

/-- A subset of a different store, with the same index set as `selA`. -/
def selOther : AtomSubset :=
  AtomSubset.ofIndices { AtomGroup.init 5 "other" with n_atoms := 5 }
    [0, 1, 2] 0 false

/-- A three-atom store whose serial numbers `[2, 0, 1]` are unique and
non-negative — the precondition under which the claim expects serial lookup
to work. -/
def agSerials : AtomGroup :=
  { AtomGroup.init 7 "serial demo" with
      n_atoms := 3,
      data := [("serials", [.aint 2, .aint 0, .aint 1])] }

/-- A three-atom store with one coordinate set and names set. -/
def agThreeAtoms : AtomGroup :=
  { AtomGroup.init 6 "three" with
      n_atoms := 3,
      coordinates := some [[(1, 1, 1), (2, 2, 2), (3, 3, 3)]],
      n_csets := 1, acsi := some 0, cslabels := some [none],
      data := [("names", [.astr "N", .astr "CA", .astr "C"])] }

/-- The mapped view of spec scenario 5: `indices=[0,2]`, `mapping=[0,2]`,
`unmapped=[1]`, total length 3. -/
def amDemo : AtomMap :=
  { ag := agThreeAtoms, indices := [0, 2], mapping := [0, 2],
    unmapped := [1], title := "demo map", acsi := 0 }

/-- A pristine store: no atoms, no coordinate sets. -/
def agBare : AtomGroup := AtomGroup.init 8 "bare"

/-- A store whose (syntactically valid, unreserved) user label `n_atoms`
collides with an archive structural key. -/
def agClobber : AtomGroup :=
  { AtomGroup.init 9 "clobber" with
      n_atoms := 2,
      coordinates := some [[(0, 0, 0), (1, 1, 1)]],
      n_csets := 1, acsi := some 0, cslabels := some [none],
      data := [("n_atoms", [.aint 7, .aint 8])] }

/-- A store with one coordinate set, a built-in field and a user label. -/
def agSave : AtomGroup :=
  { agThreeAtoms with
      oid := 10,
      cslabels := some [some "frame0"],
      data := [("names", [.astr "N", .astr "CA", .astr "C"]),
               ("flagged", [.abool true, .abool false, .abool true])] }

/-- A one-atom store with two coordinate sets and one data field set. -/
def agTwoCsets : AtomGroup :=
  { AtomGroup.init 11 "left" with
      n_atoms := 1,
      coordinates := some [[(1, 1, 1)], [(2, 2, 2)]],
      n_csets := 2, acsi := some 0, cslabels := some [none, none],
      data := [("names", [.astr "CA"]), ("betas", [.aflt 1])] }

/-- A one-atom store with three coordinate sets and one data field set. -/
def agThreeCsets : AtomGroup :=
  { AtomGroup.init 12 "right" with
      n_atoms := 1,
      coordinates := some [[(3, 3, 3)], [(4, 4, 4)], [(5, 5, 5)]],
      n_csets := 3, acsi := some 0, cslabels := some [none, none, none],
      data := [("names", [.astr "N"])] }

theorem lookup_overwrite {β : Type} (d : List (String × β)) (k k' : String)
    (v : β) :
    (d.map (fun p => if p.1 = k' then (k', v) else p)).lookup k =
      if k = k' ∧ (d.lookup k').isSome then some v else d.lookup k := by
  induction d with
  | nil => simp
  | cons p rest ih =>
      obtain ⟨k₀, v₀⟩ := p
      simp only [List.map_cons]
      by_cases h₀ : k₀ = k'
      · subst h₀
        rw [if_pos rfl]
        by_cases hk : k = k₀
        · subst hk
          simp [List.lookup_cons]
        · simp [List.lookup_cons, hk, ih, beq_false_of_ne hk]
      · rw [if_neg h₀]
        by_cases hk : k = k₀
        · subst hk
          simp [List.lookup_cons, h₀, beq_false_of_ne h₀]
        · simp only [List.lookup_cons, ih, beq_false_of_ne hk,
            beq_false_of_ne (show k' ≠ k₀ from fun h => h₀ h.symm)]

theorem lookup_append_single {β : Type} (d : List (String × β))
    (k k' : String) (v : β) :
    (d ++ [(k', v)]).lookup k =
      ((d.lookup k).orElse (fun _ => if k = k' then some v else none)) := by
  induction d with
  | nil =>
      by_cases hk : k = k' <;>
        simp [List.lookup_cons, hk, beq_false_of_ne]
  | cons p rest ih =>
      obtain ⟨k₀, v₀⟩ := p
      by_cases hk : k = k₀ <;>
        simp [List.lookup_cons, hk, ih, beq_false_of_ne]

theorem dictSet_lookup_self {β : Type} (d : List (String × β)) (k : String)
    (v : β) : (dictSet d k v).lookup k = some v := by
  unfold dictSet
  by_cases h : (d.lookup k).isSome
  · rw [if_pos h, lookup_overwrite, if_pos ⟨rfl, h⟩]
  · rw [if_neg h, lookup_append_single]
    cases hd : d.lookup k with
    | none => simp
    | some w => rw [hd] at h; simp at h

theorem dictSet_lookup_other {β : Type} (d : List (String × β)) (k k' : String)
    (v : β) (hne : k ≠ k') : (dictSet d k' v).lookup k = d.lookup k := by
  unfold dictSet
  by_cases h : (d.lookup k').isSome
  · rw [if_pos h, lookup_overwrite, if_neg (fun hc => hne hc.1)]
  · rw [if_neg h, lookup_append_single]
    cases hd : d.lookup k <;> simp [hne]

theorem foldl_mergeDataStep_lookup_not_mem (a b : AtomGroup)
    (fields : List Field) (acc : List (String × List AVal)) (k : String)
    (hk : k ∉ fields.map Field.var) :
    (fields.foldl (mergeDataStep a b) acc).lookup k = acc.lookup k := by
  induction fields generalizing acc with
  | nil => rfl
  | cons f rest ih =>
      simp only [List.map_cons, List.mem_cons, not_or] at hk
      rw [List.foldl_cons, ih _ hk.2]
      unfold mergeDataStep
      cases a.data.lookup f.var with
      | none => rfl
      | some x =>
          cases b.data.lookup f.var with
          | none => rfl
          | some y => exact dictSet_lookup_other _ _ _ _ hk.1

theorem foldl_mergeDataStep_lookup_mem (a b : AtomGroup)
    (fields : List Field) (acc : List (String × List AVal)) (f : Field)
    (hf : f ∈ fields) (hnd : (fields.map Field.var).Nodup)
    (hacc : acc.lookup f.var = none) :
    (fields.foldl (mergeDataStep a b) acc).lookup f.var =
      match a.data.lookup f.var, b.data.lookup f.var with
      | some x, some y => some (x ++ y)
      | _, _ => none := by
  induction fields generalizing acc with
  | nil => cases hf
  | cons g rest ih =>
      rw [List.map_cons, List.nodup_cons] at hnd
      rcases List.mem_cons.mp hf with hfg | hfr
      · subst hfg
        rw [List.foldl_cons,
          foldl_mergeDataStep_lookup_not_mem a b rest _ _ hnd.1]
        unfold mergeDataStep
        cases a.data.lookup f.var with
        | none => exact hacc
        | some x =>
            cases b.data.lookup f.var with
            | none => exact hacc
            | some y => exact dictSet_lookup_self _ _ _
      · have hne : f.var ≠ g.var := fun h =>
          hnd.1 (h ▸ List.mem_map_of_mem Field.var hfr)
        rw [List.foldl_cons]
        refine ih _ hfr hnd.2 ?_
        unfold mergeDataStep
        cases a.data.lookup g.var with
        | none => exact hacc
        | some x =>
            cases b.data.lookup g.var with
            | none => exact hacc
            | some y => rw [dictSet_lookup_other _ _ _ _ hne]; exact hacc

/-- `setCoords` on a fresh store with a non-empty rectangular stack. -/
theorem setCoords_init_stack (oid : Nat) (title : String)
    (css : List (List Coord)) (hne : css ≠ [])
    (hrect : ∀ c ∈ css, c.length = css.headI.length) :
    (AtomGroup.init oid title).setCoords (.stack css) =
      .ok { AtomGroup.init oid title with
              n_atoms := css.headI.length,
              coordinates := some css,
              n_csets := css.length,
              acsi := some 0,
              cslabels := some (List.replicate css.length none) } := by
  cases css with
  | nil => exact absurd rfl hne
  | cons cs rest =>
      have hrect' : ∀ c ∈ rest, c.length = cs.length := fun c hc =>
        hrect c (List.mem_cons_of_mem _ hc)
      have hno : ¬ ∃ c ∈ rest, ¬ c.length = cs.length := by
        push_neg
        exact hrect'
      unfold AtomGroup.setCoords checkCoords
      simp [AtomGroup.init, hno]

theorem agTwoCsets_wf : agTwoCsets.CoordsWF := by
  refine ⟨rfl, by decide, by decide, ⟨0, rfl, by decide⟩,
    ⟨[none, none], rfl, rfl⟩⟩

theorem agThreeCsets_wf : agThreeCsets.CoordsWF := by
  refine ⟨rfl, by decide, by decide, ⟨0, rfl, by decide⟩,
    ⟨[none, none, none], rfl, rfl⟩⟩

theorem agTwoSets_wf : agTwoSets.CoordsWF := by
  refine ⟨rfl, by decide, ?_, ⟨1, rfl, by decide⟩, ⟨[none, none], rfl, rfl⟩⟩
  decide

/-- C1 counterexample.  Merging a 2-set store with a 3-set store yields a
store with **1** coordinate set, not `min 2 3 = 2` as the claim states. -/
theorem C1_counterexample :
    agTwoCsets.n_csets = 2 ∧ agThreeCsets.n_csets = 3 ∧
      (agTwoCsets.add agThreeCsets 13).map AtomGroup.n_csets = .ok 1 ∧
      min agTwoCsets.n_csets agThreeCsets.n_csets = 2 := by
  refine ⟨rfl, rfl, ?_, rfl⟩
  rfl

/-- C1 amended.  `a + b` fails exactly on self-merge (object identity); for
two distinct well-formed stores that both hold coordinates it succeeds, the
result's coordinate-set count is the common count when the operands agree
and `1` when they differ (not the minimum), and a built-in attribute array
is present in the result — as the concatenation of the operands' arrays —
exactly when both operands define it. -/
theorem C1_merge_amended (a b : AtomGroup) (o : Nat) :
    (a.oid = b.oid →
        a.add b o = .error "an atom group cannot be added to itself") ∧
    (a.oid ≠ b.oid → a.CoordsWF → b.CoordsWF → a.n_atoms = b.n_atoms →
      0 < a.n_csets → 0 < b.n_csets →
      ∃ c, a.add b o = .ok c ∧
        c.n_csets = (if a.n_csets = b.n_csets then a.n_csets else 1) ∧
        ∀ f ∈ ATOMIC_DATA_FIELDS,
          c.data.lookup f.var =
            match a.data.lookup f.var, b.data.lookup f.var with
            | some x, some y => some (x ++ y)
            | _, _ => none) := by
  constructor
  · intro hoid
    unfold AtomGroup.add
    rw [if_pos hoid]
  · intro hoid hwa hwb _hn hka hkb
    unfold AtomGroup.CoordsWF at hwa hwb
    cases hcaEq : a.coordinates with
    | none => rw [hcaEq] at hwa; omega
    | some ca =>
    cases hcbEq : b.coordinates with
    | none => rw [hcbEq] at hwb; omega
    | some cb =>
    rw [hcaEq] at hwa
    rw [hcbEq] at hwb
    obtain ⟨hlena, -, hrowsa, -, -⟩ := hwa
    obtain ⟨hlenb, -, hrowsb, -, -⟩ := hwb
    set k := if a.n_csets ≠ b.n_csets then 1 else a.n_csets with hk
    have hkpos : 0 < k := by
      rw [hk]; split <;> omega
    have hkle_a : k ≤ ca.length := by
      rw [hlena, hk]; split <;> omega
    have hkle_b : k ≤ cb.length := by
      rw [hlenb, hk]; split <;> omega
    set merged := (List.range k).map (fun i => ca.getD i [] ++ cb.getD i [])
      with hmerged
    have hrowlen : ∀ c ∈ merged, c.length = a.n_atoms + b.n_atoms := by
      intro c hc
      rw [hmerged] at hc
      obtain ⟨i, hi, rfl⟩ := List.mem_map.mp hc
      rw [List.mem_range] at hi
      have hia : i < ca.length := lt_of_lt_of_le hi hkle_a
      have hib : i < cb.length := lt_of_lt_of_le hi hkle_b
      rw [List.length_append, List.getD_eq_getElem _ _ hia,
        List.getD_eq_getElem _ _ hib, hrowsa _ (List.getElem_mem hia),
        hrowsb _ (List.getElem_mem hib)]
    have hne : merged ≠ [] := by
      rw [hmerged]
      intro h
      have := congrArg List.length h
      simp at this
      omega
    have hheadmem : merged.headI ∈ merged := by
      cases hm : merged with
      | nil => exact absurd hm hne
      | cons x xs => simp
    have hrect : ∀ c ∈ merged, c.length = merged.headI.length := by
      intro c hc
      rw [hrowlen c hc, hrowlen merged.headI hheadmem]
    unfold AtomGroup.add
    rw [if_neg hoid, hcaEq, hcbEq]
    simp only
    rw [← hk, ← hmerged, setCoords_init_stack o _ merged hne hrect]
    refine ⟨_, rfl, ?_, ?_⟩
    · show merged.length = _
      rw [hmerged, List.length_map, List.length_range, hk]
      by_cases h : a.n_csets = b.n_csets <;> simp [h]
    · intro f hf
      show (mergeFieldData a b).lookup f.var = _
      exact foldl_mergeDataStep_lookup_mem a b ATOMIC_DATA_FIELDS [] f hf
        (by decide) rfl

/-- C1 witness for the amended claim: the two concrete stores of the
counterexample (2 and 3 coordinate sets, one atom each). -/
theorem C1_witness :
    ∃ c, agTwoCsets.add agThreeCsets 13 = .ok c ∧
      c.n_csets = (if agTwoCsets.n_csets = agThreeCsets.n_csets then
                     agTwoCsets.n_csets else 1) ∧
      ∀ f ∈ ATOMIC_DATA_FIELDS,
        c.data.lookup f.var =
          match agTwoCsets.data.lookup f.var, agThreeCsets.data.lookup f.var with
          | some x, some y => some (x ++ y)
          | _, _ => none :=
  (C1_merge_amended agTwoCsets agThreeCsets 13).2 (by decide) agTwoCsets_wf
    agThreeCsets_wf rfl (by decide) (by decide)

/-- C4.  `setCoords` with an `(n, 3)` array writes into the active
coordinate set (creating a first set if none exists) and `getCoords` reads
it back unchanged. -/
theorem C4_setCoords_getCoords_roundtrip (ag : AtomGroup) (X : List Coord)
    (hn : 0 < ag.n_atoms) (hX : X.length = ag.n_atoms) (hwf : ag.CoordsWF) :
    ∃ ag', ag.setCoords (.single X) = .ok ag' ∧ ag'.getCoords = some X := by
  have hchk : checkCoords (.single X) ag.n_atoms = .ok [X] := by
    simp [checkCoords, hX]
  unfold AtomGroup.setCoords
  rw [hchk]
  simp only [Nat.pos_iff_ne_zero] at hn
  unfold AtomGroup.CoordsWF at hwf
  cases hc : ag.coordinates with
  | none =>
      refine ⟨_, rfl, ?_⟩
      simp [AtomGroup.getCoords, hn]
  | some old =>
      rw [hc] at hwf
      obtain ⟨hlen, -, -, ⟨i, hacsi, hi⟩, -⟩ := hwf
      refine ⟨_, rfl, ?_⟩
      simp only [AtomGroup.getCoords, hn, if_neg (by exact hn), hacsi]
      simp only [Option.getD_some]
      rw [List.getD_eq_getElem?_getD, List.getElem?_set_self, Option.getD]
      omega

/-- C4 witness: a store with no prior coordinate sets, `n = 2`. -/
theorem C4_witness :
    ∃ ag', agNoCoords.setCoords (.single [(5, 6, 7), (8, 9, 10)]) = .ok ag' ∧
      ag'.getCoords = some [(5, 6, 7), (8, 9, 10)] :=
  C4_setCoords_getCoords_roundtrip agNoCoords [(5, 6, 7), (8, 9, 10)]
    (by decide) (by decide) (by simp [agNoCoords, AtomGroup.init, AtomGroup.CoordsWF])

/-- C8.  While a trajectory is bound, `addCoordset` and `delCoordset` both
fail with the lock error (the delete on an empty stack fails even earlier);
without a binding, `addCoordset` on a well-shaped array and `delCoordset` on
an in-range index of a non-empty stack both succeed. -/
theorem C8_trajectory_lock (ag : AtomGroup) (coords : CoordInput)
    (index : Nat) :
    (ag.trajectory = true →
        ag.addCoordset coords =
          .error "AtomGroup is locked for coordinate set addition/deletion" ∧
        (0 < ag.n_csets →
          ag.delCoordset index =
            .error "AtomGroup is locked for coordinate set addition/deletion")) ∧
    (ag.trajectory = false → (checkCoords coords ag.n_atoms).isOk = true →
        (ag.addCoordset coords).isOk = true) ∧
    (ag.trajectory = false → 0 < ag.n_csets → index < ag.n_csets →
        (ag.delCoordset index).isOk = true) := by
  refine ⟨fun htraj => ⟨?_, fun hcs => ?_⟩, fun htraj hchk => ?_, fun htraj hcs hidx => ?_⟩
  · simp [AtomGroup.addCoordset, htraj]
  · simp [AtomGroup.delCoordset, htraj, Nat.pos_iff_ne_zero.mp hcs]
  · cases hchk' : checkCoords coords ag.n_atoms with
    | error e => simp [hchk', Except.isOk, Except.toBool] at hchk
    | ok css =>
        unfold AtomGroup.addCoordset
        rw [htraj]
        cases hc : ag.coordinates with
        | none =>
            simp only [Bool.false_eq_true, if_false, AtomGroup.setCoords, hchk', hc]
            rfl
        | some old =>
            simp only [Bool.false_eq_true, if_false, hc, hchk']
            rfl
  · unfold AtomGroup.delCoordset
    rw [htraj]
    simp only [Nat.pos_iff_ne_zero.mp hcs, if_false, Bool.false_eq_true, hidx, if_true]
    by_cases h : ((ag.coordinates.getD []).eraseIdx index).length = 0 <;>
      simp only [h, if_true, if_false] <;> rfl

/-- C8 witness: the locked and unlocked two-set stores, adding one more set
and deleting set 0. -/
theorem C8_witness :
    (agLockedTwoSets.addCoordset (.single [(3, 0, 0), (0, 3, 0)]) =
        .error "AtomGroup is locked for coordinate set addition/deletion" ∧
      agLockedTwoSets.delCoordset 0 =
        .error "AtomGroup is locked for coordinate set addition/deletion") ∧
    (agTwoSets.addCoordset (.single [(3, 0, 0), (0, 3, 0)])).isOk = true ∧
    (agTwoSets.delCoordset 0).isOk = true := by
  have h₁ := C8_trajectory_lock agLockedTwoSets (.single [(3, 0, 0), (0, 3, 0)]) 0
  have h₂ := C8_trajectory_lock agTwoSets (.single [(3, 0, 0), (0, 3, 0)]) 0
  exact ⟨⟨(h₁.1 rfl).1, (h₁.1 rfl).2 (by decide)⟩,
         h₂.2.1 rfl (by decide), h₂.2.2 rfl (by decide) (by decide)⟩

/-- C10.  A successful `delCoordset` on a stack of at least two sets always
resets the active coordinate-set index to 0, whatever it was before and
whichever set was removed. -/
theorem C10_delCoordset_resets_acsi (ag : AtomGroup) (index : Nat)
    (h2 : 2 ≤ ag.n_csets) (hwf : ag.CoordsWF) (htraj : ag.trajectory = false)
    (hidx : index < ag.n_csets) :
    ∃ ag', ag.delCoordset index = .ok ag' ∧ ag'.acsi = some 0 := by
  unfold AtomGroup.CoordsWF at hwf
  cases hc : ag.coordinates with
  | none => rw [hc] at hwf; omega
  | some css =>
      rw [hc] at hwf
      obtain ⟨hlen, -, -, -, -⟩ := hwf
      have herase : (css.eraseIdx index).length = ag.n_csets - 1 := by
        rw [List.length_eraseIdx_of_lt (by omega), hlen]
      unfold AtomGroup.delCoordset
      rw [htraj, hc]
      simp only [Nat.pos_iff_ne_zero.mp (by omega : 0 < ag.n_csets), if_false,
        Bool.false_eq_true, hidx, if_true, Option.getD_some, herase]
      rw [if_neg (by omega)]
      exact ⟨_, rfl, rfl⟩

/-- C10 witness: deleting the non-active set 0 of `agTwoSets` (whose active
index is 1) still resets the active index to 0. -/
theorem C10_witness :
    ∃ ag', agTwoSets.delCoordset 0 = .ok ag' ∧ ag'.acsi = some 0 :=
  C10_delCoordset_resets_acsi agTwoSets 0 (by decide) agTwoSets_wf rfl (by decide)

theorem mem_insUnique (x a : Nat) (l : List Nat) :
    a ∈ insUnique x l ↔ a = x ∨ a ∈ l := by
  induction l with
  | nil => simp [insUnique]
  | cons y ys ih =>
      unfold insUnique
      by_cases h1 : x < y
      · rw [if_pos h1]
        simp only [List.mem_cons]
      · by_cases h2 : x = y
        · subst h2
          rw [if_neg h1, if_pos rfl]
          simp only [List.mem_cons]
          tauto
        · rw [if_neg h1, if_neg h2]
          simp only [List.mem_cons, ih]
          tauto

theorem sorted_insUnique (x : Nat) (l : List Nat) (h : l.Sorted (· < ·)) :
    (insUnique x l).Sorted (· < ·) := by
  induction l with
  | nil => simp [insUnique]
  | cons y ys ih =>
      rw [List.sorted_cons] at h
      unfold insUnique
      by_cases h1 : x < y
      · rw [if_pos h1, List.sorted_cons]
        refine ⟨?_, List.sorted_cons.mpr h⟩
        intro b hb
        rcases List.mem_cons.mp hb with rfl | hb'
        · exact h1
        · exact lt_trans h1 (h.1 b hb')
      · by_cases h2 : x = y
        · rw [if_neg h1, if_pos h2]
          exact List.sorted_cons.mpr h
        · rw [if_neg h1, if_neg h2, List.sorted_cons]
          refine ⟨?_, ih h.2⟩
          intro b hb
          rcases (mem_insUnique x b ys).mp hb with rfl | hb'
          · omega
          · exact h.1 b hb'

theorem npUnique_sorted (l : List Nat) : (npUnique l).Sorted (· < ·) := by
  induction l with
  | nil => simp [npUnique]
  | cons x xs ih => exact sorted_insUnique x _ ih

theorem mem_npUnique (a : Nat) (l : List Nat) : a ∈ npUnique l ↔ a ∈ l := by
  induction l with
  | nil => simp [npUnique]
  | cons x xs ih =>
      show a ∈ insUnique x (npUnique xs) ↔ _
      rw [mem_insUnique, ih, List.mem_cons]

/-- Two strictly sorted lists with the same members are equal. -/
theorem sorted_lt_ext (l₁ l₂ : List Nat) (h₁ : l₁.Sorted (· < ·))
    (h₂ : l₂.Sorted (· < ·)) (hm : ∀ x, x ∈ l₁ ↔ x ∈ l₂) : l₁ = l₂ :=
  List.eq_of_perm_of_sorted
    ((List.perm_ext_iff_of_nodup h₁.nodup h₂.nodup).mpr hm) h₁ h₂

theorem range_eraseIdx (m j : Nat) (hj : j < m) :
    (List.range m).eraseIdx j =
      List.range j ++ List.range' (j + 1) (m - (j + 1)) := by
  have hsplit : List.range m = List.range j ++ List.range' j (m - j) := by
    rw [List.range_eq_range', List.range_eq_range']
    have h := List.range'_append 0 j (m - j) 1
    simp only [Nat.zero_add, Nat.one_mul] at h
    rw [h]
    congr 1
    omega
  rw [hsplit, List.eraseIdx_append_of_length_le (by simp)]
  congr 1
  have h2 : m - j = (m - (j + 1)) + 1 := by omega
  rw [List.length_range, Nat.sub_self, h2, List.range'_succ,
    List.eraseIdx_cons_zero]

/-- The `while indices: arange.pop(indices.pop())` loop of `__invert__`:
popping a strictly increasing position list from the end out of
`range m ++ B` removes exactly those positions of the `range m` prefix. -/
theorem popLoop_eq_filter (l : List Nat) : ∀ (m : Nat) (B : List Nat),
    l.Sorted (· < ·) → (∀ x ∈ l, x < m) →
    l.reverse.foldl (fun ar j => ar.eraseIdx j) (List.range m ++ B) =
      (List.range m).filter (fun x => x ∉ l) ++ B := by
  induction l using List.reverseRecOn with
  | nil =>
      intro m B _ _
      simp
  | append_singleton l' j ih =>
      intro m B hs hb
      have hj : j < m := hb j (by simp)
      have hl' : ∀ x ∈ l', x < j := fun x hx =>
        (List.pairwise_append.mp hs).2.2 x hx j (by simp)
      have hs' : l'.Sorted (· < ·) := (List.pairwise_append.mp hs).1
      rw [List.reverse_append, List.reverse_singleton, List.singleton_append,
        List.foldl_cons,
        List.eraseIdx_append_of_lt_length (by simp [hj]),
        range_eraseIdx m j hj, List.append_assoc,
        ih j (List.range' (j + 1) (m - (j + 1)) ++ B) hs' hl']
      rw [← List.append_assoc]
      congr 1
      have hdecomp : List.range m =
          List.range j ++ (j :: List.range' (j + 1) (m - (j + 1))) := by
        have hsplit : List.range m = List.range j ++ List.range' j (m - j) := by
          rw [List.range_eq_range', List.range_eq_range']
          have h := List.range'_append 0 j (m - j) 1
          simp only [Nat.zero_add, Nat.one_mul] at h
          rw [h]
          congr 1
          omega
        rw [hsplit]
        congr 1
        have h2 : m - j = (m - (j + 1)) + 1 := by omega
        rw [h2, List.range'_succ]
      rw [hdecomp, List.filter_append]
      congr 1
      · -- on `range j` the two predicates agree: no element equals `j`
        apply List.filter_congr
        intro x hx
        rw [List.mem_range] at hx
        have hxj : x ≠ j := by omega
        simp only [decide_eq_decide, List.mem_append, List.mem_singleton]
        tauto
      · -- `j` itself is dropped, everything above `j` is kept
        rw [List.filter_cons_of_neg (by simp)]
        rw [List.filter_eq_self.mpr]
        intro x hx
        rw [List.mem_range'] at hx
        obtain ⟨i, -, rfl⟩ := hx
        have hxl' : j + 1 + 1 * i ∉ l' := fun hc => by
          have := hl' _ hc
          omega
        simp only [List.mem_append, List.mem_singleton, decide_eq_true_eq]
        push_neg
        exact ⟨hxl', by omega⟩

/-- C9.  `~a` is the ascending list of exactly the store indices not in
`a`, and `~~a` has the same index set as `a`. -/
theorem C9_complement (s : AtomSubset) (hs : s.indices.Sorted (· < ·))
    (hb : ∀ x ∈ s.indices, x < s.ag.n_atoms) :
    s.invert.indices =
      (List.range s.ag.n_atoms).filter (fun x => x ∉ s.indices) ∧
    s.invert.invert.indices = s.indices := by
  have hfilter : ∀ (t : List Nat), t.Sorted (· < ·) →
      (∀ x ∈ t, x < s.ag.n_atoms) →
      (AtomSubset.mk s.ag t 0).invert.indices =
        (List.range s.ag.n_atoms).filter (fun x => x ∉ t) := by
    intro t hts htb
    show npUnique (t.reverse.foldl (fun ar j => ar.eraseIdx j)
      (List.range s.ag.n_atoms)) = _
    have hp := popLoop_eq_filter t s.ag.n_atoms [] hts htb
    rw [List.append_nil, List.append_nil] at hp
    rw [hp]
    exact sorted_lt_ext _ _ (npUnique_sorted _)
      ((List.sorted_lt_range s.ag.n_atoms).filter _)
      (fun x => mem_npUnique x _)
  have h1 : s.invert.indices =
      (List.range s.ag.n_atoms).filter (fun x => x ∉ s.indices) := by
    have := hfilter s.indices hs hb
    exact this
  refine ⟨h1, ?_⟩
  have hinv_sorted : s.invert.indices.Sorted (· < ·) := by
    rw [h1]; exact (List.sorted_lt_range s.ag.n_atoms).filter _
  have hinv_b : ∀ x ∈ s.invert.indices, x < s.ag.n_atoms := by
    rw [h1]
    intro x hx
    exact List.mem_range.mp (List.mem_filter.mp hx).1
  have h2 : s.invert.invert.indices =
      (List.range s.ag.n_atoms).filter (fun x => x ∉ s.invert.indices) := by
    have hag : s.invert.ag = s.ag := rfl
    have := hfilter s.invert.indices hinv_sorted hinv_b
    exact this
  rw [h2]
  simp only [h1]
  apply sorted_lt_ext _ _ ((List.sorted_lt_range s.ag.n_atoms).filter _) hs
  intro x
  simp only [List.mem_filter, List.mem_range, decide_eq_true_eq, not_and,
    not_not]
  constructor
  · rintro ⟨hxn, hx2⟩
    exact hx2 hxn
  · intro hx
    exact ⟨hb x hx, fun _ => hx⟩

/-- C3.  On two subset views of the same store, `|` returns the sorted
duplicate-free merge of the index sets and `&` returns their sorted
duplicate-free intersection — `None`, a defined empty result, when they are
disjoint; on views of different stores both operations raise.  On
`a = {0,1,2}` and `b = {2,3,4}` of one store, the union is `{0,1,2,3,4}`
and the intersection `{2}`. -/
theorem C3_subset_algebra (a b : AtomSubset) :
    (a.ag.oid ≠ b.ag.oid →
        a.union b = .error "both selections must be from the same AtomGroup" ∧
        a.inter b = .error "both selections must be from the same AtomGroup") ∧
    (a.ag.oid = b.ag.oid →
      (∃ u, a.union b = .ok u ∧ u.ag = a.ag ∧
        u.indices.Sorted (· < ·) ∧ u.indices.Nodup ∧
        ∀ x, x ∈ u.indices ↔ x ∈ a.indices ∨ x ∈ b.indices) ∧
      (a.indices.Disjoint b.indices → a.inter b = .ok none) ∧
      (¬ a.indices.Disjoint b.indices →
        ∃ v, a.inter b = .ok (some v) ∧ v.ag = a.ag ∧
          v.indices.Sorted (· < ·) ∧ v.indices.Nodup ∧
          ∀ x, x ∈ v.indices ↔ x ∈ a.indices ∧ x ∈ b.indices)) ∧
    (∃ u, selA.union selB = .ok u ∧ u.indices = [0, 1, 2, 3, 4]) ∧
    (∃ v, selA.inter selB = .ok (some v) ∧ v.indices = [2]) := by
  refine ⟨fun hne => ?_, fun heq => ⟨?_, fun hdisj => ?_, fun hmeet => ?_⟩,
    ⟨_, rfl, by decide⟩, ⟨_, rfl, by decide⟩⟩
  · constructor
    · unfold AtomSubset.union
      rw [if_pos hne]
    · unfold AtomSubset.inter
      rw [if_pos hne]
  · unfold AtomSubset.union
    rw [if_neg (by omega)]
    refine ⟨_, rfl, rfl, npUnique_sorted _, (npUnique_sorted _).nodup, ?_⟩
    intro x
    rw [show (mkSelection a.ag (npUnique (a.indices ++ b.indices))
          (if a.acsi ≠ b.acsi then 0 else a.acsi)).indices
        = npUnique (npUnique (a.indices ++ b.indices)) from rfl]
    rw [mem_npUnique, mem_npUnique, List.mem_append]
  · unfold AtomSubset.inter
    rw [if_neg (by omega)]
    have hempty : a.indices.filter (fun x => x ∈ b.indices) = [] := by
      rw [List.filter_eq_nil_iff]
      intro x hx
      simp only [decide_eq_true_eq]
      exact fun hxb => hdisj hx hxb
    rw [if_pos hempty]
  · unfold AtomSubset.inter
    rw [if_neg (by omega)]
    have hnonempty : ¬ a.indices.filter (fun x => x ∈ b.indices) = [] := by
      intro h
      rw [List.filter_eq_nil_iff] at h
      exact hmeet (fun x hxa hxb => h x hxa (by simp [hxb]))
    rw [if_neg hnonempty]
    refine ⟨_, rfl, rfl, npUnique_sorted _, (npUnique_sorted _).nodup, ?_⟩
    intro x
    rw [show (mkSelection a.ag
          (npUnique (a.indices.filter (fun x => x ∈ b.indices)))
          (if a.acsi ≠ b.acsi then 0 else a.acsi)).indices
        = npUnique (npUnique (a.indices.filter (fun x => x ∈ b.indices)))
        from rfl]
    rw [mem_npUnique, mem_npUnique, List.mem_filter]
    simp

/-- C3 witness: the same-store pair `{0,1,2}`, `{2,3,4}` (overlapping) and
the different-store pair. -/
theorem C3_witness :
    (selA.union selOther =
        .error "both selections must be from the same AtomGroup" ∧
      selA.inter selOther =
        .error "both selections must be from the same AtomGroup") ∧
    (∃ v, selA.inter selB = .ok (some v) ∧ v.ag = selA.ag ∧
      v.indices.Sorted (· < ·) ∧ v.indices.Nodup ∧
      ∀ x, x ∈ v.indices ↔ x ∈ selA.indices ∧ x ∈ selB.indices) :=
  ⟨(C3_subset_algebra selA selOther).1 (by decide),
   ((C3_subset_algebra selA selB).2.1 (by decide)).2.2
     (fun h => h (show (2 : Nat) ∈ selA.indices by decide) (by decide))⟩

/-- C5.  The code, evaluated at the claim's good case: a store whose serial
field holds the unique non-negative values `[2, 0, 1]`.  Building the
serial index and looking a serial up both raise `AttributeError` — the
`self._serials` read in `_buildSN2I` names an attribute that
`AtomGroup.__slots__` does not provide and nothing ever assigns (the data
sits in `_data['serials']`), so the claimed success path is unreachable. -/
theorem C5_serial_index_always_raises :
    agSerials.getData "serials" = some [.aint 2, .aint 0, .aint 1] ∧
    agSerials.buildSN2I = .error "AtomGroup object has no attribute _serials" ∧
    agSerials.getBySerial 1 =
      .error "AtomGroup object has no attribute _serials" :=
  ⟨rfl, rfl, rfl⟩

theorem lookup_eq_none_of_not_mem_keys {β : Type} (d : List (String × β))
    (k : String) (h : k ∉ d.map Prod.fst) : d.lookup k = none := by
  induction d with
  | nil => rfl
  | cons p rest ih =>
      obtain ⟨k₀, v₀⟩ := p
      simp only [List.map_cons, List.mem_cons, not_or] at h
      simp only [List.lookup_cons, beq_false_of_ne h.1]
      exact ih h.2

theorem lookup_mem_of_nodup {β : Type} (d : List (String × β))
    (kv : String × β) (hmem : kv ∈ d) (hnd : (d.map Prod.fst).Nodup) :
    d.lookup kv.1 = some kv.2 := by
  induction d with
  | nil => cases hmem
  | cons p rest ih =>
      obtain ⟨k₀, v₀⟩ := p
      rw [List.map_cons, List.nodup_cons] at hnd
      rcases List.mem_cons.mp hmem with rfl | hmem'
      · simp [List.lookup_cons]
      · have hne : kv.1 ≠ k₀ := fun h => hnd.1 (by
          rw [← h]
          exact List.mem_map.mpr ⟨kv, hmem', rfl⟩)
        simp only [List.lookup_cons, beq_false_of_ne hne]
        exact ih hmem' hnd.2

theorem dictSet_of_lookup_none {β : Type} (d : List (String × β))
    (k : String) (v : β) (h : d.lookup k = none) :
    dictSet d k v = d ++ [(k, v)] := by
  unfold dictSet
  rw [h]
  rfl

theorem foldl_dictSet_append {β : Type} (es : List (String × β)) :
    ∀ d : List (String × β),
    (∀ kv ∈ es, kv.1 ∉ d.map Prod.fst) → (es.map Prod.fst).Nodup →
    es.foldl (fun acc kv => dictSet acc kv.1 kv.2) d = d ++ es := by
  induction es with
  | nil => intro d _ _; simp
  | cons kv rest ih =>
      intro d hdisj hnd
      rw [List.map_cons, List.nodup_cons] at hnd
      rw [List.foldl_cons, dictSet_of_lookup_none d kv.1 kv.2
        (lookup_eq_none_of_not_mem_keys d kv.1 (hdisj kv (by simp)))]
      rw [ih (d ++ [kv]) ?_ hnd.2]
      · rw [List.append_assoc, List.singleton_append]
      · intro kv' h'
        rw [List.map_append, List.mem_append]
        push_neg
        refine ⟨hdisj kv' (List.mem_cons_of_mem _ h'), ?_⟩
        simp only [List.map_cons, List.map_nil, List.mem_singleton]
        exact fun h => hnd.1 (h ▸ List.mem_map_of_mem Prod.fst h')

theorem foldl_dictSetVarr_append (es : List (String × List AVal)) :
    ∀ d : List (String × ArchiveVal),
    (∀ kv ∈ es, kv.1 ∉ d.map Prod.fst) → (es.map Prod.fst).Nodup →
    es.foldl (fun acc kv => dictSet acc kv.1 (ArchiveVal.varr kv.2)) d =
      d ++ es.map (fun kv => (kv.1, ArchiveVal.varr kv.2)) := by
  induction es with
  | nil => intro d _ _; simp
  | cons kv rest ih =>
      intro d hdisj hnd
      rw [List.map_cons, List.nodup_cons] at hnd
      rw [List.foldl_cons, dictSet_of_lookup_none d kv.1 (.varr kv.2)
        (lookup_eq_none_of_not_mem_keys d kv.1 (hdisj kv (by simp)))]
      have hdisj' : ∀ kv' ∈ rest,
          kv'.1 ∉ (d ++ [(kv.1, ArchiveVal.varr kv.2)]).map Prod.fst := by
        intro kv' h'
        rw [List.map_append, List.mem_append]
        push_neg
        refine ⟨hdisj kv' (List.mem_cons_of_mem _ h'), ?_⟩
        simp only [List.map_cons, List.map_nil, List.mem_singleton]
        exact fun h => hnd.1 (by
          rw [← h]
          exact List.mem_map_of_mem Prod.fst h')
      rw [ih _ hdisj' hnd.2, List.map_cons, List.append_assoc,
        List.singleton_append]

theorem loadDataStep_skip (ag : AtomGroup) (kv : String × ArchiveVal)
    (h : kv.1 ∈ SKIP) : loadDataStep ag kv = .ok ag := by
  unfold loadDataStep
  rw [if_pos h]

theorem load_loop_skip (es : List (String × ArchiveVal))
    (h : ∀ kv ∈ es, kv.1 ∈ SKIP) (ag : AtomGroup) :
    es.foldlM loadDataStep ag = .ok ag := by
  induction es with
  | nil => rfl
  | cons kv rest ih =>
      rw [List.foldlM_cons, loadDataStep_skip ag kv (h kv (by simp))]
      show rest.foldlM loadDataStep ag = .ok ag
      exact ih (fun kv' h' => h kv' (List.mem_cons_of_mem _ h'))

theorem setData_ok (ag : AtomGroup) (label : String) (v : List AVal)
    (hvl : ValidDataLabel label) (hlen : v.length = ag.n_atoms) :
    ag.setData label v = .ok { ag with data := dictSet ag.data label v } := by
  obtain ⟨h1, h2, h3, h4, h5⟩ := hvl
  unfold AtomGroup.setData
  rw [if_neg h1, if_neg (by rw [h2]; simp), if_neg (by push_neg; exact ⟨h3, h4⟩),
    if_neg (by rw [h5]; simp), if_neg (by omega)]

theorem load_loop_data (es : List (String × List AVal)) (n : Nat) :
    ∀ ag : AtomGroup, ag.n_atoms = n →
    (∀ kv ∈ es, kv.1 ∉ SKIP) →
    (∀ kv ∈ es, kv.1 ∈ fieldVars ∨
      (ValidDataLabel kv.1 ∧ kv.2.length = n)) →
    (es.map (fun kv => (kv.1, ArchiveVal.varr kv.2))).foldlM loadDataStep ag =
      .ok { ag with
              data := es.foldl (fun acc kv => dictSet acc kv.1 kv.2) ag.data } := by
  induction es with
  | nil =>
      intro ag _ _ _
      rfl
  | cons kv rest ih =>
      intro ag hn hskip hgood
      rw [List.map_cons, List.foldlM_cons]
      have hstep : loadDataStep ag (kv.1, .varr kv.2) =
          .ok { ag with data := dictSet ag.data kv.1 kv.2 } := by
        unfold loadDataStep
        rw [if_neg (hskip kv (by simp))]
        rcases hgood kv (by simp) with hf | ⟨hvl, hlen⟩
        · simp only [hf, if_pos]
        · by_cases hf : kv.1 ∈ fieldVars
          · simp only [hf, if_pos]
          · simp only [hf, if_false, Bool.false_eq_true]
            exact setData_ok ag kv.1 kv.2 hvl (by omega)
      rw [hstep]
      show (rest.map (fun kv => (kv.1, ArchiveVal.varr kv.2))).foldlM
        loadDataStep _ = _
      rw [ih { ag with data := dictSet ag.data kv.1 kv.2 } hn
        (fun kv' h' => hskip kv' (List.mem_cons_of_mem _ h'))
        (fun kv' h' => hgood kv' (List.mem_cons_of_mem _ h'))]
      rfl

theorem except_bind_ok {ε α β : Type} (x : α) (f : α → Except ε β) :
    (Except.ok x >>= f : Except ε β) = f x := rfl

/-- C7 counterexample.  Two stores on which `load(save(store))` does not
reproduce the store: a pristine store with no coordinate sets (its saved
`cslabels` entry is the pickled `None`, and `list()` of that 0-d entry
raises on load), and a store whose valid user label `n_atoms` clobbers the
archive's atom-count entry (`int()` of the 2-element array raises). -/
theorem C7_counterexample :
    agBare.numCoordsets = 0 ∧
    loadAtoms (saveAtoms agBare) 99 = .error "iteration over a 0-d array" ∧
    agClobber.numCoordsets = 1 ∧
    loadAtoms (saveAtoms agClobber) 99 =
      .error "int() argument must be a scalar" :=
  ⟨rfl, rfl, rfl, rfl⟩

/-- C7 amended.  For a Store with at least one coordinate set whose data
keys avoid the archive's structural keys (`SKIP`) and are either built-in
field variables or validated user labels of matching length, the round
trip reproduces the atom count, the coordinate-set count, every coordinate
set, the coordinate-set labels and every data entry bit-exact, whatever
order the data dict holds them in. -/
theorem C7_roundtrip_amended (ag : AtomGroup) (o : Nat)
    (hwf : ag.CoordsWF) (hcs : 0 < ag.n_csets)
    (hnd : (ag.data.map Prod.fst).Nodup)
    (hskip : ∀ kv ∈ ag.data, kv.1 ∉ SKIP)
    (hgood : ∀ kv ∈ ag.data, kv.1 ∈ fieldVars ∨
      (ValidDataLabel kv.1 ∧ kv.2.length = ag.n_atoms)) :
    ∃ ag', loadAtoms (saveAtoms ag) o = .ok ag' ∧
      ag'.numAtoms = ag.numAtoms ∧
      ag'.numCoordsets = ag.numCoordsets ∧
      ag'.coordinates = ag.coordinates ∧
      ag'.cslabels = ag.cslabels ∧
      ∀ kv ∈ ag.data, ag'.data.lookup kv.1 = some kv.2 := by
  cases hcssEq : ag.coordinates with
  | none =>
      unfold AtomGroup.CoordsWF at hwf
      rw [hcssEq] at hwf
      omega
  | some css =>
  unfold AtomGroup.CoordsWF at hwf
  rw [hcssEq] at hwf
  obtain ⟨hclen, -, -, -, ⟨ls, hlsEq, hlslen⟩⟩ := hwf
  have hget : ag.getCSLabels = some ls := by
    unfold AtomGroup.getCSLabels
    rw [if_pos (by omega), hlsEq]
    rfl
  set base : List (String × ArchiveVal) :=
    [("title", .vstr ag.title), ("n_atoms", .vnat ag.n_atoms),
     ("n_csets", .vnat ag.n_csets), ("cslabels", .vcslabels (some ls)),
     ("coordinates", .vcoords css)] with hbase
  set mapped := ag.data.map (fun kv => (kv.1, ArchiveVal.varr kv.2))
    with hmapped
  have hbasekeys : base.map Prod.fst =
      ["title", "n_atoms", "n_csets", "cslabels", "coordinates"] := by
    rw [hbase]
    rfl
  have hbase_sub_skip : ∀ k ∈ base.map Prod.fst, k ∈ SKIP := by
    rw [hbasekeys]
    decide
  have hdisj : ∀ kv ∈ ag.data, kv.1 ∉ base.map Prod.fst := by
    intro kv hkv hmem
    exact hskip kv hkv (hbase_sub_skip _ hmem)
  have hsave : saveAtoms ag = base ++ mapped := by
    unfold saveAtoms
    simp only [hget, hcssEq]
    show ag.data.foldl (fun acc kv => dictSet acc kv.1 (ArchiveVal.varr kv.2))
      base = base ++ mapped
    rw [foldl_dictSetVarr_append ag.data base hdisj hnd, hmapped]
  have hmappedkeys : mapped.map Prod.fst = ag.data.map Prod.fst := by
    rw [hmapped, List.map_map]
    rfl
  have hnotm : ∀ k ∈ SKIP, k ∉ mapped.map Prod.fst := by
    intro k hk hmem
    rw [hmappedkeys] at hmem
    obtain ⟨kv, hkv, hEq⟩ := List.mem_map.mp hmem
    exact hskip kv hkv (hEq ▸ hk)
  have hnc : ¬ "_coordinates" ∈ (base ++ mapped).map Prod.fst := by
    rw [List.map_append, List.mem_append, hbasekeys]
    rintro (h | h)
    · simp at h
    · exact hnotm "_coordinates" (by decide) h
  have hna : "n_atoms" ∈ (base ++ mapped).map Prod.fst := by
    rw [List.map_append, List.mem_append, hbasekeys]
    left
    simp
  have hlook : ∀ (k : String) (v : ArchiveVal), base.lookup k = some v →
      (base ++ mapped).lookup k = some v := by
    intro k v h
    rw [List.lookup_append, h]
    rfl
  have hlt : (base ++ mapped).lookup "title" = some (.vstr ag.title) :=
    hlook _ _ (by rw [hbase]; rfl)
  have hlna : (base ++ mapped).lookup "n_atoms" = some (.vnat ag.n_atoms) :=
    hlook _ _ (by rw [hbase]; rfl)
  have hlnc : (base ++ mapped).lookup "n_csets" = some (.vnat ag.n_csets) :=
    hlook _ _ (by rw [hbase]; rfl)
  have hlcl : (base ++ mapped).lookup "cslabels" =
      some (.vcslabels (some ls)) :=
    hlook _ _ (by rw [hbase]; rfl)
  have hlco : (base ++ mapped).lookup "coordinates" =
      some (.vcoords css) :=
    hlook _ _ (by rw [hbase]; rfl)
  rw [hsave]
  unfold loadAtoms
  rw [if_neg hnc, if_neg (not_not_intro hna)]
  simp only [hlt, hlco, hlna, hlnc, hlcl, Option.elim, pyInt,
    pyListCSLabels]
  have hfold : List.foldl (fun acc kv => dictSet acc kv.1 kv.2)
      (AtomGroup.init o (pyStr (ArchiveVal.vstr ag.title))).data ag.data
      = ag.data := by
    rw [show (AtomGroup.init o (pyStr (ArchiveVal.vstr ag.title))).data
        = [] from rfl,
      foldl_dictSet_append ag.data [] (by simp) hnd, List.nil_append]
  rw [List.foldlM_append,
    load_loop_skip base (fun kv hkv =>
      hbase_sub_skip kv.1 (List.mem_map_of_mem Prod.fst hkv)) _,
    except_bind_ok, hmapped,
    load_loop_data ag.data ag.n_atoms _ ?hnn hskip hgood, hfold]
  case hnn => rfl
  simp only [AtomGroup.numCoordsets]
  rw [if_pos (by exact hcs)]
  unfold AtomGroup.setCSLabels
  rw [if_pos (by exact hlslen)]
  refine ⟨_, rfl, ?_, ?_, ?_, ?_, ?_⟩
  · rfl
  · rfl
  · rfl
  · rw [hlsEq]
  · intro kv hkv
    exact lookup_mem_of_nodup ag.data kv hkv hnd

/-- C7 witness for the amended claim: a three-atom store with one
coordinate set, a labelled set, a built-in field and a `flagged` user
label. -/
theorem C7_witness :
    ∃ ag', loadAtoms (saveAtoms agSave) 100 = .ok ag' ∧
      ag'.numAtoms = agSave.numAtoms ∧
      ag'.numCoordsets = agSave.numCoordsets ∧
      ag'.coordinates = agSave.coordinates ∧
      ag'.cslabels = agSave.cslabels ∧
      ∀ kv ∈ agSave.data, ag'.data.lookup kv.1 = some kv.2 :=
  C7_roundtrip_amended agSave 100
    ⟨rfl, by decide, by decide, ⟨0, rfl, by decide⟩,
      ⟨[some "frame0"], rfl, rfl⟩⟩
    (by decide) (by decide) (by decide) (by decide)

theorem npIndexList_spec {α : Type} (arr : List α) (idxs : List Nat)
    (h : ∀ i ∈ idxs, i < arr.length) :
    ∃ data, npIndexList arr idxs = some data ∧
      data.length = idxs.length ∧
      ∀ j : Nat, data[j]? = (idxs[j]?.bind (fun i => arr[i]?)) := by
  induction idxs with
  | nil =>
      refine ⟨[], rfl, rfl, ?_⟩
      intro j
      simp
  | cons i is ih =>
      obtain ⟨data, hdata, hlen, hget⟩ := ih (fun x hx => h x (by simp [hx]))
      have hi : i < arr.length := h i (by simp)
      refine ⟨arr[i] :: data, ?_, by simp [hlen], ?_⟩
      · unfold npIndexList
        rw [hdata, List.getElem?_eq_getElem hi]
      · intro j
        cases j with
        | zero => simp [List.getElem?_eq_getElem hi]
        | succ j' => simpa using hget j'

theorem npSetAt_length {α : Type} (base : List α) (ps : List Nat)
    (vs : List α) : (npSetAt base ps vs).length = base.length := by
  unfold npSetAt
  induction ps generalizing base vs with
  | nil => rfl
  | cons p ps' ih =>
      cases vs with
      | nil => rfl
      | cons v vs' => rw [List.zip_cons_cons, List.foldl_cons, ih,
          List.length_set]

theorem npSetAt_getElem?_not_mem {α : Type} (base : List α) (ps : List Nat)
    (vs : List α) (k : Nat) (hk : k ∉ ps) :
    (npSetAt base ps vs)[k]? = base[k]? := by
  induction ps generalizing base vs with
  | nil => rfl
  | cons p ps' ih =>
      cases vs with
      | nil => rfl
      | cons v vs' =>
          rw [List.mem_cons, not_or] at hk
          rw [show npSetAt base (p :: ps') (v :: vs')
              = npSetAt (base.set p v) ps' vs' from rfl,
            ih _ _ hk.2, List.getElem?_set_ne (fun h => hk.1 h.symm)]

theorem npSetAt_getElem?_mem {α : Type} (ps : List Nat) :
    ∀ (base vs : List α) (j p : Nat) (v : α), ps.Nodup →
    ps[j]? = some p → vs[j]? = some v → p < base.length →
    (npSetAt base ps vs)[p]? = some v := by
  induction ps with
  | nil => intro base vs j p v _ hp; simp at hp
  | cons q qs ih =>
      intro base vs j p v hnd hp hv hlen
      cases vs with
      | nil => simp at hv
      | cons v₀ vs' =>
          rw [List.nodup_cons] at hnd
          rw [show npSetAt base (q :: qs) (v₀ :: vs')
              = npSetAt (base.set q v₀) qs vs' from rfl]
          cases j with
          | zero =>
              rw [List.getElem?_cons_zero, Option.some_inj] at hp hv
              subst hp
              subst hv
              rw [npSetAt_getElem?_not_mem _ _ _ _ hnd.1]
              exact List.getElem?_set_self hlen
          | succ j' =>
              rw [List.getElem?_cons_succ] at hp hv
              exact ih (base.set q v₀) vs' j' p v hnd.2 hp hv
                (by rw [List.length_set]; exact hlen)

/-- The common scatter pattern of the `AtomMap` readers:
`result = np.zeros((n,) + ..., dtype); result[ps] = arr[idxs]`. -/
theorem scatter_spec {α : Type} (arr : List α) (idxs ps : List Nat) (n : Nat)
    (z : α) (hidx : ∀ i ∈ idxs, i < arr.length)
    (_hlen : ps.length = idxs.length) (hnd : ps.Nodup)
    (hpb : ∀ k ∈ ps, k < n) :
    ∃ data, npIndexList arr idxs = some data ∧
      (npSetAt (List.replicate n z) ps data).length = n ∧
      (∀ k, k < n → k ∉ ps →
        (npSetAt (List.replicate n z) ps data)[k]? = some z) ∧
      (∀ j p i : Nat, ps[j]? = some p → idxs[j]? = some i →
        (npSetAt (List.replicate n z) ps data)[p]? = arr[i]?) := by
  obtain ⟨data, hdata, hdlen, hdget⟩ := npIndexList_spec arr idxs hidx
  refine ⟨data, hdata, ?_, ?_, ?_⟩
  · rw [npSetAt_length, List.length_replicate]
  · intro k hk hknot
    rw [npSetAt_getElem?_not_mem _ _ _ _ hknot, List.getElem?_replicate,
      if_pos hk]
  · intro j p i hp hi
    obtain ⟨hjlt, -⟩ := List.getElem?_eq_some_iff.mp hi
    have hieq : i ∈ idxs := by
      obtain ⟨hl, he⟩ := List.getElem?_eq_some_iff.mp hi
      exact he ▸ List.getElem_mem hl
    have hiarr : i < arr.length := hidx i hieq
    have hveq : data[j]? = some arr[i] := by
      rw [hdget j, hi, Option.some_bind, List.getElem?_eq_getElem hiarr]
    have hpmem : p ∈ ps := by
      obtain ⟨hl, he⟩ := List.getElem?_eq_some_iff.mp hp
      exact he ▸ List.getElem_mem hl
    rw [npSetAt_getElem?_mem ps _ _ j p arr[i] hnd hp hveq
      (by rw [List.length_replicate]; exact hpb p hpmem),
      List.getElem?_eq_getElem hiarr]

/-- C2.  For every mapped view, `numMapped + numUnmapped = numAtoms`, and
each reader — the per-field getter, `getData` on a stored label, and
`getCoords` — returns an array of length `numAtoms` whose unmapped slots
hold the element type's canonical zero (`0`, `0.0`, `False`, the empty
string, or the zero coordinate row) and whose slot `mapping[j]` holds the
store's value at `indices[j]`. -/
theorem C2_atommap_readers (am : AtomMap) :
    am.numMapped + am.numUnmapped = am.numAtoms ∧
    (∀ f arr, am.ag.data.lookup f.var = some arr →
      (∀ i ∈ am.indices, i < arr.length) →
      am.mapping.length = am.indices.length → am.mapping.Nodup →
      (∀ k ∈ am.mapping, k < am.len) →
      (∀ k ∈ am.unmapped, k < am.len ∧ k ∉ am.mapping) →
      ∃ res, am.getFieldData f = .ok (some res) ∧ res.length = am.numAtoms ∧
        (∀ k ∈ am.unmapped, res[k]? = some f.dtype.zeroVal) ∧
        (∀ j p i : Nat, am.mapping[j]? = some p → am.indices[j]? = some i →
          res[p]? = arr[i]?)) ∧
    (∀ label arr, am.ag.data.lookup label = some arr →
      (∀ i ∈ am.indices, i < arr.length) →
      am.mapping.length = am.indices.length → am.mapping.Nodup →
      (∀ k ∈ am.mapping, k < am.len) →
      (∀ k ∈ am.unmapped, k < am.len ∧ k ∉ am.mapping) →
      ∃ res, am.getData label = .ok (some res) ∧ res.length = am.numAtoms ∧
        (∀ k ∈ am.unmapped, res[k]? = some (npDtype arr).zeroVal) ∧
        (∀ j p i : Nat, am.mapping[j]? = some p → am.indices[j]? = some i →
          res[p]? = arr[i]?)) ∧
    (∀ css cs, am.ag.coordinates = some css → css[am.acsi]? = some cs →
      (∀ i ∈ am.indices, i < cs.length) →
      am.mapping.length = am.indices.length → am.mapping.Nodup →
      (∀ k ∈ am.mapping, k < am.len) →
      (∀ k ∈ am.unmapped, k < am.len ∧ k ∉ am.mapping) →
      ∃ res, am.getCoords = .ok (some res) ∧ res.length = am.numAtoms ∧
        (∀ k ∈ am.unmapped, res[k]? = some zeroCoord) ∧
        (∀ j p i : Nat, am.mapping[j]? = some p → am.indices[j]? = some i →
          res[p]? = cs[i]?)) := by
  refine ⟨Nat.add_comm _ _, ?_, ?_, ?_⟩
  · intro f arr harr hidx hlen hnd hmb hub
    obtain ⟨data, hdata, hslen, hzero, hmap⟩ :=
      scatter_spec arr am.indices am.mapping am.len f.dtype.zeroVal hidx
        hlen hnd hmb
    refine ⟨_, ?_, ?_, ?_, hmap⟩
    · unfold AtomMap.getFieldData
      rw [harr]
      simp only [hdata]
    · exact hslen
    · intro k hk
      exact hzero k (hub k hk).1 (hub k hk).2
  · intro label arr harr hidx hlen hnd hmb hub
    obtain ⟨data, hdata, hslen, hzero, hmap⟩ :=
      scatter_spec arr am.indices am.mapping am.len (npDtype arr).zeroVal
        hidx hlen hnd hmb
    refine ⟨_, ?_, ?_, ?_, hmap⟩
    · unfold AtomMap.getData
      rw [harr]
      simp only [hdata]
    · exact hslen
    · intro k hk
      exact hzero k (hub k hk).1 (hub k hk).2
  · intro css cs hcss hcs hidx hlen hnd hmb hub
    obtain ⟨data, hdata, hslen, hzero, hmap⟩ :=
      scatter_spec cs am.indices am.mapping am.len zeroCoord hidx hlen hnd hmb
    refine ⟨_, ?_, ?_, ?_, hmap⟩
    · unfold AtomMap.getCoords
      rw [hcss]
      simp only [hcs, hdata]
    · exact hslen
    · intro k hk
      exact hzero k (hub k hk).1 (hub k hk).2

/-- C2 witness: the mapped view of the spec's scenario 5 — `indices=[0,2]`,
`mapping=[0,2]`, `unmapped=[1]` over a three-atom store — read through
`getCoords` and through the `name` field getter. -/
theorem C2_witness :
    amDemo.numMapped + amDemo.numUnmapped = amDemo.numAtoms ∧
    (∃ res, amDemo.getCoords = .ok (some res) ∧
      res.length = amDemo.numAtoms ∧
      (∀ k ∈ amDemo.unmapped, res[k]? = some zeroCoord) ∧
      (∀ j p i : Nat, amDemo.mapping[j]? = some p → amDemo.indices[j]? = some i →
        res[p]? = [(1, 1, 1), (2, 2, 2), (3, 3, 3)][i]?)) :=
  ⟨(C2_atommap_readers amDemo).1,
   (C2_atommap_readers amDemo).2.2.2 [[(1, 1, 1), (2, 2, 2), (3, 3, 3)]]
     [(1, 1, 1), (2, 2, 2), (3, 3, 3)] rfl rfl (by decide) rfl (by decide)
     (by decide) (by decide)⟩

/-- C9 witness: the subset `{1, 3}` of the five-atom store. -/
theorem C9_witness :
    selC.invert.indices =
      (List.range selC.ag.n_atoms).filter (fun x => x ∉ selC.indices) ∧
    selC.invert.invert.indices = selC.indices :=
  C9_complement selC (by decide) (by decide)

/-! C6: the hierarchical index. -/

theorem alookup_eq_none_of_forall {α β : Type} [DecidableEq α] :
    ∀ (d : List (α × β)) (k : α), (∀ p ∈ d, p.1 ≠ k) → alookup d k = none := by
  intro d k h
  induction d with
  | nil => rfl
  | cons p rest ih =>
    obtain ⟨k₀, v₀⟩ := p
    rw [alookup, if_neg (fun he => h (k₀, v₀) (List.mem_cons_self _ _) he.symm)]
    exact ih (fun q hq => h q (List.mem_cons_of_mem _ hq))

theorem alookup_of_mem_nodup {α β : Type} [DecidableEq α] :
    ∀ (d : List (α × β)) (k : α) (v : β), (k, v) ∈ d →
    (d.map Prod.fst).Nodup → alookup d k = some v := by
  intro d k v hmem hnd
  induction d with
  | nil => cases hmem
  | cons p rest ih =>
    obtain ⟨k₀, v₀⟩ := p
    simp only [List.map_cons, List.nodup_cons] at hnd
    rcases List.mem_cons.mp hmem with he | hmem'
    · obtain ⟨h1, h2⟩ := Prod.mk.injEq .. ▸ he
      rw [alookup, if_pos h1, h2]
    · have hne : k ≠ k₀ := by
        intro he
        exact hnd.1 (he ▸ List.mem_map.mpr ⟨(k, v), hmem', rfl⟩)
      rw [alookup, if_neg hne]
      exact ih hmem' hnd.2

theorem alookup_append_left_none {α β : Type} [DecidableEq α] :
    ∀ (d₁ d₂ : List (α × β)) (k : α), alookup d₁ k = none →
    alookup (d₁ ++ d₂) k = alookup d₂ k := by
  intro d₁ d₂ k h
  induction d₁ with
  | nil => rfl
  | cons p rest ih =>
    obtain ⟨k₀, v₀⟩ := p
    rw [alookup] at h
    by_cases he : k = k₀
    · rw [if_pos he] at h; cases h
    · rw [if_neg he] at h
      rw [List.cons_append, alookup, if_neg he]
      exact ih h

/-- Every chain the scan emits carries a fresh chain id and exactly the
atoms of that id, in store order: the `_indices[i:][chids[i:] == chid]`
slice at the id's first unseen occurrence is the whole id class. -/
theorem chainScan_mem :
    ∀ (l : List HAtom) (prev : Option String) (seen : List String),
    (∀ c, prev = some c → c ∈ seen) →
    ∀ c as, (c, as) ∈ chainScan prev seen l →
      c ∉ seen ∧ as = l.filter (fun b => b.chid = c) := by
  intro l
  induction l with
  | nil => intro prev seen _ c as h; cases h
  | cons a rest ih =>
    intro prev seen hinv c as h
    rw [chainScan] at h
    by_cases hc : some a.chid = prev ∨ a.chid ∈ seen
    · rw [if_pos hc] at h
      have hseen : a.chid ∈ seen := by
        rcases hc with hc | hc
        · exact hinv _ hc.symm
        · exact hc
      obtain ⟨hns, heq⟩ := ih prev seen hinv c as h
      have hne : ¬(a.chid = c) := fun he => hns (he ▸ hseen)
      refine ⟨hns, ?_⟩
      rw [List.filter_cons, if_neg (by simp [hne])]
      exact heq
    · rw [if_neg hc] at h
      push_neg at hc
      rcases List.mem_cons.mp h with h | h
      · obtain ⟨h1, h2⟩ := Prod.mk.injEq .. ▸ h
        subst h1
        exact ⟨hc.2, h2⟩
      · obtain ⟨hns, heq⟩ := ih (some a.chid) (a.chid :: seen)
          (fun c' hc' => (Option.some.inj hc') ▸ List.mem_cons_self _ _) c as h
        have hne : ¬(a.chid = c) :=
          fun he => hns (he ▸ List.mem_cons_self _ _)
        refine ⟨fun hcs => hns (List.mem_cons_of_mem _ hcs), ?_⟩
        rw [List.filter_cons, if_neg (by simp [hne])]
        exact heq

/-- The chain ids the scan emits are pairwise distinct and disjoint from
the already-seen set (`_chains` is keyed by chain id). -/
theorem chainScan_keys :
    ∀ (l : List HAtom) (prev : Option String) (seen : List String),
    ((chainScan prev seen l).map Prod.fst).Nodup ∧
    ∀ c ∈ (chainScan prev seen l).map Prod.fst, c ∉ seen := by
  intro l
  induction l with
  | nil =>
    intro prev seen
    exact ⟨List.nodup_nil, fun c hc => by cases hc⟩
  | cons a rest ih =>
    intro prev seen
    rw [chainScan]
    by_cases hc : some a.chid = prev ∨ a.chid ∈ seen
    · rw [if_pos hc]; exact ih prev seen
    · rw [if_neg hc]
      push_neg at hc
      obtain ⟨hnd, hnotin⟩ := ih (some a.chid) (a.chid :: seen)
      simp only [List.map_cons, List.nodup_cons]
      refine ⟨⟨fun hmem => ?_, hnd⟩, ?_⟩
      · exact hnotin _ hmem (List.mem_cons_self _ _)
      · intro c hcmem
        rcases List.mem_cons.mp hcmem with he | hcmem'
        · exact he ▸ hc.2
        · exact fun hcs => hnotin c hcmem' (List.mem_cons_of_mem _ hcs)

/-- Every chain id occurring among the atoms and not yet seen gets a
chain. -/
theorem chainScan_keys_complete :
    ∀ (l : List HAtom) (prev : Option String) (seen : List String),
    (∀ c, prev = some c → c ∈ seen) →
    ∀ a ∈ l, a.chid ∉ seen → a.chid ∈ (chainScan prev seen l).map Prod.fst := by
  intro l
  induction l with
  | nil => intro _ _ _ a ha; cases ha
  | cons b rest ih =>
    intro prev seen hinv a hmem hns
    rw [chainScan]
    by_cases hc : some b.chid = prev ∨ b.chid ∈ seen
    · rw [if_pos hc]
      have hbseen : b.chid ∈ seen := by
        rcases hc with hc | hc
        · exact hinv _ hc.symm
        · exact hc
      rcases List.mem_cons.mp hmem with he | hmem'
      · exact absurd (he ▸ hbseen) hns
      · exact ih prev seen hinv a hmem' hns
    · rw [if_neg hc]
      simp only [List.map_cons]
      by_cases he : a.chid = b.chid
      · exact he ▸ List.mem_cons_self _ _
      · rcases List.mem_cons.mp hmem with hab | hmem'
        · exact absurd (hab ▸ rfl) he
        · refine List.mem_cons_of_mem _ ?_
          refine ih (some b.chid) (b.chid :: seen)
            (fun c' hc' => (Option.some.inj hc') ▸ List.mem_cons_self _ _)
            a hmem' ?_
          intro hx
          rcases List.mem_cons.mp hx with hx | hx
          · exact he hx
          · exact hns hx

/-- The first run the residue pass emits is keyed by the first atom. -/
theorem runsBy_head_key (key : HAtom → ResKey) (a : HAtom) (l : List HAtom) :
    ∃ r more, runsBy key (a :: l) = (key a, r) :: more := by
  cases h : runsBy key l with
  | nil =>
    refine ⟨[a], [], ?_⟩
    rw [runsBy, h]
  | cons p more =>
    obtain ⟨k, run⟩ := p
    by_cases he : key a = k
    · refine ⟨a :: run, more, ?_⟩
      rw [runsBy, h]
      simp only [he, if_true]
    · refine ⟨[a], (k, run) :: more, ?_⟩
      rw [runsBy, h]
      simp only [if_neg he]

/-- A nonempty constant-key prefix whose key differs from the next atom's
key becomes exactly one run. -/
theorem runsBy_const_append (key : HAtom → ResKey) (k : ResKey) :
    ∀ (s t : List HAtom), s ≠ [] → (∀ a ∈ s, key a = k) →
    (∀ b, t.head? = some b → key b ≠ k) →
    runsBy key (s ++ t) = (k, s) :: runsBy key t := by
  intro s
  induction s with
  | nil => intro t h; exact absurd rfl h
  | cons a s' ih =>
    intro t _ hconst hhead
    cases s' with
    | nil =>
      cases t with
      | nil =>
        have hka := hconst a (List.mem_cons_self _ _)
        simp only [List.append_nil, runsBy, hka]
      | cons b t' =>
        obtain ⟨r, more, hr⟩ := runsBy_head_key key b t'
        have hka := hconst a (List.mem_cons_self _ _)
        have hne : ¬(key a = key b) := by
          rw [hka]
          exact fun he => hhead b rfl he.symm
        rw [List.singleton_append]
        conv_lhs => rw [runsBy]
        rw [hr]
        have hne' : ¬(k = key b) := by rw [← hka]; exact hne
        simp only [hka, if_neg hne']
    | cons a' s'' =>
      have hrec := ih t (by simp) (fun x hx => hconst x (List.mem_cons_of_mem _ hx)) hhead
      rw [List.cons_append, runsBy, hrec]
      simp only [if_pos (hconst a (List.mem_cons_self _ _))]

/-- On a concatenation of nonempty constant-key segments with pairwise
distinct keys, the run detection recovers exactly the segments. -/
theorem runsBy_segments (key : HAtom → ResKey) :
    ∀ (segs : List (ResKey × List HAtom)),
    (∀ p ∈ segs, p.2 ≠ [] ∧ ∀ a ∈ p.2, key a = p.1) →
    (segs.map Prod.fst).Nodup →
    runsBy key (segs.map Prod.snd).flatten = segs := by
  intro segs
  induction segs with
  | nil => intro _ _; rfl
  | cons p rest ih =>
    intro hgood hnd
    obtain ⟨k, s⟩ := p
    obtain ⟨hne, hconst⟩ := hgood (k, s) (List.mem_cons_self _ _)
    simp only [List.map_cons, List.flatten_cons]
    simp only [List.map_cons, List.nodup_cons] at hnd
    have hrest := ih (fun q hq => hgood q (List.mem_cons_of_mem _ hq)) hnd.2
    rw [runsBy_const_append key k s _ hne hconst ?hhead, hrest]
    case hhead =>
      intro b hb hkb
      cases rest with
      | nil => cases hb
      | cons q rest' =>
        obtain ⟨k', s'⟩ := q
        obtain ⟨hne', hconst'⟩ := hgood (k', s')
          (List.mem_cons_of_mem _ (List.mem_cons_self _ _))
        cases hs' : s' with
        | nil => exact hne' hs'
        | cons a s'' =>
          have hb' : b = a := by
            rw [List.map_cons, List.flatten_cons, hs', List.cons_append,
              List.head?_cons] at hb
            exact (Option.some.inj hb).symm
          have hak : key a = k' := hconst' a (hs' ▸ List.mem_cons_self _ _)
          have hk'k : k' = k := hak.symm.trans (hb' ▸ hkb)
          refine hnd.1 ?_
          rw [List.map_cons, hk'k]
          exact List.mem_cons_self _ _

/-- Inserting runs whose keys are fresh and pairwise distinct just appends
them to the ordered dictionary. -/
theorem dictMergeRuns_fresh :
    ∀ (runs d : List (ResKey × List HAtom)),
    (∀ p ∈ runs, alookup d p.1 = none) →
    (runs.map Prod.fst).Nodup →
    dictMergeRuns d runs = d ++ runs := by
  intro runs
  induction runs with
  | nil => intro d _ _; rw [dictMergeRuns, List.append_nil]
  | cons p more ih =>
    intro d hfresh hnd
    obtain ⟨k, run⟩ := p
    simp only [List.map_cons, List.nodup_cons] at hnd
    have hk : alookup d k = none := hfresh (k, run) (List.mem_cons_self _ _)
    rw [dictMergeRuns, if_neg (by rw [hk]; exact fun h => by cases h)]
    rw [ih (d ++ [(k, run)]) ?hfresh2 hnd.2, List.append_assoc,
      List.singleton_append]
    case hfresh2 =>
      intro q hq
      rw [alookup_append_left_none _ _ _ (hfresh q (List.mem_cons_of_mem _ hq))]
      have hqk : q.1 ≠ k := fun he =>
        hnd.1 (he ▸ List.mem_map.mpr ⟨q, hq, rfl⟩)
      rw [alookup, if_neg hqk]
      rfl

theorem blockAtoms_mem (off : Nat) (t : Triple) (m : Nat) :
    ∀ a ∈ blockAtoms off t m,
      a.chid = t.1 ∧ a.resnum = t.2.1 ∧ a.icode = t.2.2 := by
  intro a ha
  simp only [blockAtoms, List.mem_map] at ha
  obtain ⟨j, _, rfl⟩ := ha
  exact ⟨rfl, rfl, rfl⟩

theorem blockAtoms_ne_nil (off : Nat) (t : Triple) (m : Nat) (hm : 0 < m) :
    blockAtoms off t m ≠ [] := by
  have hl : (blockAtoms off t m).length = m := by simp [blockAtoms]
  intro h
  rw [h] at hl
  simp at hl
  omega

theorem blockAtoms_indices (off : Nat) (t : Triple) (m : Nat) :
    (blockAtoms off t m).map HAtom.idx = List.range' off m := by
  rw [blockAtoms, List.map_map, List.range'_eq_map_range]
  rfl

/-- The atoms of chain id `c`, in store order, are the concatenation of the
`c`-blocks' segments. -/
theorem expand_filter (c : String) :
    ∀ (blocks : List (Triple × Nat)) (off : Nat),
    (expandFrom off blocks).filter (fun b => b.chid = c) =
      ((csegs off c blocks).map Prod.snd).flatten := by
  intro blocks
  induction blocks with
  | nil => intro _; rfl
  | cons b rest ih =>
    intro off
    obtain ⟨t, m⟩ := b
    rw [expandFrom, List.filter_append, csegs]
    by_cases hc : t.1 = c
    · rw [if_pos hc, List.map_cons, List.flatten_cons, ih (off + m)]
      congr 1
      rw [List.filter_eq_self]
      intro a ha
      simp only [decide_eq_true_eq]
      rw [(blockAtoms_mem off t m a ha).1, hc]
    · rw [if_neg hc, ih (off + m)]
      have hnil : (blockAtoms off t m).filter (fun b => b.chid = c) = [] := by
        rw [List.filter_eq_nil_iff]
        intro a ha
        simp only [decide_eq_true_eq]
        rw [(blockAtoms_mem off t m a ha).1]
        exact hc
      rw [hnil, List.nil_append]

theorem csegs_map_fst (c : String) :
    ∀ (blocks : List (Triple × Nat)) (off : Nat),
    (csegs off c blocks).map Prod.fst =
      (blocks.filter (fun b => b.1.1 = c)).map (fun b => (b.1.2.1, b.1.2.2)) := by
  intro blocks
  induction blocks with
  | nil => intro _; rfl
  | cons b rest ih =>
    intro off
    obtain ⟨t, m⟩ := b
    rw [csegs, List.filter_cons]
    by_cases hc : t.1 = c
    · rw [if_pos hc, if_pos (by simpa using hc), List.map_cons, List.map_cons,
        ih]
    · rw [if_neg hc, if_neg (by simpa using hc), ih]

theorem csegs_entries (c : String) :
    ∀ (blocks : List (Triple × Nat)) (off : Nat),
    (∀ b ∈ blocks, 0 < b.2) →
    ∀ p ∈ csegs off c blocks,
      p.2 ≠ [] ∧ ∀ a ∈ p.2, (a.resnum, a.icode) = p.1 := by
  intro blocks
  induction blocks with
  | nil => intro _ _ p hp; cases hp
  | cons b rest ih =>
    intro off hpos p hp
    obtain ⟨t, m⟩ := b
    rw [csegs] at hp
    by_cases hc : t.1 = c
    · rw [if_pos hc] at hp
      rcases List.mem_cons.mp hp with he | hp'
      · subst he
        refine ⟨blockAtoms_ne_nil off t m
          (hpos (t, m) (List.mem_cons_self _ _)), ?_⟩
        intro a ha
        obtain ⟨_, h2, h3⟩ := blockAtoms_mem off t m a ha
        rw [h2, h3]
      · exact ih (off + m) (fun q hq => hpos q (List.mem_cons_of_mem _ hq)) p hp'
    · rw [if_neg hc] at hp
      exact ih (off + m) (fun q hq => hpos q (List.mem_cons_of_mem _ hq)) p hp

theorem csegs_keys_nodup (c : String) (blocks : List (Triple × Nat)) (off : Nat)
    (hnd : (blocks.map Prod.fst).Nodup) :
    ((csegs off c blocks).map Prod.fst).Nodup := by
  rw [csegs_map_fst]
  refine List.Nodup.map_on ?_ (List.Nodup.filter _ (List.Nodup.of_map _ hnd))
  intro x hx y hy hf
  obtain ⟨⟨xc, xr, xi⟩, xm⟩ := x
  obtain ⟨⟨yc, yr, yi⟩, ym⟩ := y
  have hx1 : xc = c := by simpa using (List.mem_filter.mp hx).2
  have hy1 : yc = c := by simpa using (List.mem_filter.mp hy).2
  obtain ⟨h1, h2⟩ := Prod.mk.injEq .. ▸ hf
  refine List.inj_on_of_nodup_map hnd (List.mem_of_mem_filter hx)
    (List.mem_of_mem_filter hy) ?_
  have h1' : xr = yr := h1
  have h2' : xi = yi := h2
  show (xc, xr, xi) = (yc, yr, yi)
  rw [hx1, hy1, h1', h2']

/-- The block of triple `t` appears among chain `t.1`'s residue segments,
keyed by `(resnum, icode)`, with its atoms at the block's store offset. -/
theorem csegs_mem_block (c : String) :
    ∀ (blocks : List (Triple × Nat)) (off : Nat) (t : Triple) (m : Nat),
    (t, m) ∈ blocks → (blocks.map Prod.fst).Nodup → t.1 = c →
    ((t.2.1, t.2.2), blockAtoms (off + offsetOf blocks t) t m) ∈
      csegs off c blocks := by
  intro blocks
  induction blocks with
  | nil => intro _ t m h; cases h
  | cons b rest ih =>
    intro off t m hmem hnd hc
    obtain ⟨t', m'⟩ := b
    simp only [List.map_cons, List.nodup_cons] at hnd
    rcases List.mem_cons.mp hmem with he | hmem'
    · obtain ⟨h1, h2⟩ := Prod.mk.injEq .. ▸ he
      subst h1; subst h2
      rw [offsetOf, if_pos rfl, Nat.add_zero, csegs, if_pos hc]
      exact List.mem_cons_self _ _
    · have ht't : t' ≠ t := by
        intro he
        exact hnd.1 (he ▸ List.mem_map.mpr ⟨(t, m), hmem', rfl⟩)
      rw [offsetOf, if_neg ht't, ← Nat.add_assoc, csegs]
      by_cases hc' : t'.1 = c
      · rw [if_pos hc']
        exact List.mem_cons_of_mem _ (ih (off + m') t m hmem' hnd.2 hc)
      · rw [if_neg hc']
        exact ih (off + m') t m hmem' hnd.2 hc

theorem expand_mem_of_block :
    ∀ (blocks : List (Triple × Nat)) (off : Nat) (t : Triple) (m : Nat),
    (t, m) ∈ blocks → 0 < m →
    ∃ a ∈ expandFrom off blocks, a.chid = t.1 := by
  intro blocks
  induction blocks with
  | nil => intro _ t m h; cases h
  | cons b rest ih =>
    intro off t m hmem hm
    obtain ⟨t', m'⟩ := b
    rw [expandFrom]
    rcases List.mem_cons.mp hmem with he | hmem'
    · obtain ⟨h1, h2⟩ := Prod.mk.injEq .. ▸ he
      refine ⟨⟨off, t'.1, t'.2.1, t'.2.2⟩, ?_, by rw [h1]⟩
      refine List.mem_append_left _ ?_
      simp only [blockAtoms, List.mem_map]
      exact ⟨0, List.mem_range.mpr (by omega), by simp⟩
    · obtain ⟨a, ha, hcc⟩ := ih (off + m') t m hmem' hm
      exact ⟨a, List.mem_append_right _ ha, hcc⟩

/-- The residue key used by `update` agrees with `(resnum, icode)` on every
atom of the target: when all insertion codes are empty the `skip_icodes`
key `(resnum, '')` coincides. -/
theorem rkey_of_all (atoms : List HAtom) (a : HAtom) (ha : a ∈ atoms) :
    HAtom.rkey (atoms.all (fun b => b.icode = "")) a = (a.resnum, a.icode) := by
  cases hall : atoms.all (fun b => b.icode = "") with
  | false => rfl
  | true =>
    have h2 : a.icode = "" := by simpa using List.all_eq_true.mp hall a ha
    simp [HAtom.rkey, h2]

theorem csegs_mem_expand (c : String) (blocks : List (Triple × Nat)) (off : Nat)
    (p : ResKey × List HAtom) (hp : p ∈ csegs off c blocks) (a : HAtom)
    (ha : a ∈ p.2) : a ∈ expandFrom off blocks := by
  have hmem : a ∈ ((csegs off c blocks).map Prod.snd).flatten :=
    List.mem_flatten.mpr ⟨p.2, List.mem_map.mpr ⟨p, hp, rfl⟩, ha⟩
  rw [← expand_filter] at hmem
  exact List.mem_of_mem_filter hmem

/-- The residue dictionary a chain ends up with is exactly its blocks'
segments, in block order: the run detection sees one run per block and the
ordered-dict insertion never hits an existing key. -/
theorem chainResidues_eq_csegs (blocks : List (Triple × Nat)) (c : String)
    (hpos : ∀ b ∈ blocks, 0 < b.2) (hnd : (blocks.map Prod.fst).Nodup) :
    chainResidues ((expandFrom 0 blocks).all (fun a => a.icode = ""))
        ((expandFrom 0 blocks).filter (fun b => b.chid = c)) =
      csegs 0 c blocks := by
  have hgood : ∀ p ∈ csegs 0 c blocks, p.2 ≠ [] ∧
      ∀ a ∈ p.2,
        HAtom.rkey ((expandFrom 0 blocks).all (fun b => b.icode = "")) a =
          p.1 := by
    intro p hp
    obtain ⟨hne, hkey⟩ := csegs_entries c blocks 0 hpos p hp
    refine ⟨hne, fun a ha => ?_⟩
    rw [rkey_of_all _ a (csegs_mem_expand c blocks 0 p hp a ha)]
    exact hkey a ha
  rw [chainResidues, expand_filter,
    runsBy_segments _ _ hgood (csegs_keys_nodup c blocks 0 hnd),
    dictMergeRuns_fresh _ [] (fun _ _ => rfl) (csegs_keys_nodup c blocks 0 hnd),
    List.nil_append]

theorem sum_indicator (c : String) :
    ∀ (K : List String), K.Nodup → c ∈ K →
    (K.map (fun k => if c = k then 1 else 0)).sum = 1 := by
  intro K
  induction K with
  | nil => intro _ hc; cases hc
  | cons a K ih =>
    intro hnd hc
    simp only [List.map_cons, List.sum_cons]
    rw [List.nodup_cons] at hnd
    rcases List.mem_cons.mp hc with rfl | hc'
    · rw [if_pos rfl]
      have hz : (K.map (fun k => if c = k then (1 : Nat) else 0)).sum = 0 := by
        refine List.sum_eq_zero ?_
        intro x hx
        obtain ⟨k, hk, rfl⟩ := List.mem_map.mp hx
        have hck : ¬(c = k) := fun he => hnd.1 (he.symm ▸ hk)
        rw [if_neg hck]
      omega
    · have hne : ¬(c = a) := fun he => hnd.1 (he ▸ hc')
      rw [if_neg hne, ih hnd.2 hc']

/-- Counting: summing, over any duplicate-free cover of the chain ids, the
number of blocks of each id gives the total number of blocks. -/
theorem sum_filter_lengths (K : List String) :
    ∀ (L : List (Triple × Nat)), K.Nodup → (∀ b ∈ L, b.1.1 ∈ K) →
    (K.map (fun c => (L.filter (fun x => x.1.1 = c)).length)).sum =
      L.length := by
  intro L
  induction L with
  | nil => intro _ _; simp
  | cons b rest ih =>
    intro hnd hcov
    have hlen : ∀ c, ((b :: rest).filter (fun x => x.1.1 = c)).length =
        (if b.1.1 = c then 1 else 0) +
          (rest.filter (fun x => x.1.1 = c)).length := by
      intro c
      rw [List.filter_cons]
      by_cases h : b.1.1 = c
      · rw [if_pos (by simpa using h), if_pos h, List.length_cons]
        omega
      · rw [if_neg (by simpa using h), if_neg h]
        omega
    rw [List.map_congr_left (fun c _ => hlen c), List.sum_map_add,
      sum_indicator b.1.1 K hnd (hcov b (List.mem_cons_self _ _)),
      ih hnd (fun q hq => hcov q (List.mem_cons_of_mem _ hq)),
      List.length_cons]
    omega

/-- C6: for every store whose entities are pre-ordered into one contiguous
run per (chain-id, residue-number, insertion-code) triple, building the
hierarchical index (`HierView.update`) gives `numResidues()` equal to the
number of distinct triples, and looking up any triple's residue returns
exactly the member indices of that triple's contiguous run. -/
theorem C6_hierarchy (blocks : List (Triple × Nat))
    (hpos : ∀ b ∈ blocks, 0 < b.2)
    (hnd : (blocks.map Prod.fst).Nodup) :
    hierNumResidues (hierView (expandFrom 0 blocks)) = blocks.length ∧
    ∀ b ∈ blocks,
      hierGetResidue (hierView (expandFrom 0 blocks)) b.1.1 b.1.2.1 b.1.2.2 =
        some (List.range' (offsetOf blocks b.1) b.2) := by
  have hinv : ∀ c, (none : Option String) = some c → c ∈ ([] : List String) :=
    fun _ hc => Option.noConfusion hc
  have hhv : hierView (expandFrom 0 blocks) =
      (chainScan none [] (expandFrom 0 blocks)).map
        (fun e => (e.1,
          chainResidues ((expandFrom 0 blocks).all (fun a => a.icode = ""))
            e.2)) := rfl
  have hknd : ((chainScan none [] (expandFrom 0 blocks)).map Prod.fst).Nodup :=
    (chainScan_keys (expandFrom 0 blocks) none []).1
  have hkcov : ∀ b ∈ blocks,
      b.1.1 ∈ (chainScan none [] (expandFrom 0 blocks)).map Prod.fst := by
    intro b hb
    obtain ⟨a, ha, hac⟩ := expand_mem_of_block blocks 0 b.1 b.2 hb (hpos b hb)
    exact hac ▸ chainScan_keys_complete (expandFrom 0 blocks) none [] hinv a ha
      (List.not_mem_nil _)
  constructor
  · have hcg : (chainScan none [] (expandFrom 0 blocks)).map
        ((fun e => e.2.length) ∘
          (fun e => (e.1,
            chainResidues ((expandFrom 0 blocks).all (fun a => a.icode = ""))
              e.2))) =
      (chainScan none [] (expandFrom 0 blocks)).map
        ((fun k => (blocks.filter (fun x => x.1.1 = k)).length) ∘
          Prod.fst) := by
      refine List.map_congr_left ?_
      intro e he
      obtain ⟨c, as⟩ := e
      obtain ⟨-, hfe⟩ :=
        chainScan_mem (expandFrom 0 blocks) none [] hinv c as he
      show (chainResidues _ as).length =
        (blocks.filter (fun x => x.1.1 = c)).length
      rw [hfe, chainResidues_eq_csegs blocks c hpos hnd]
      have hlen := congrArg List.length (csegs_map_fst c blocks 0)
      rw [List.length_map, List.length_map] at hlen
      exact hlen
    rw [hhv, hierNumResidues, List.map_map, hcg, ← List.map_map]
    exact sum_filter_lengths _ blocks hknd hkcov
  · intro b hb
    obtain ⟨e, he, hefst⟩ := List.mem_map.mp (hkcov b hb)
    obtain ⟨c, as⟩ := e
    have hc : c = b.1.1 := hefst
    subst hc
    have hvfst : (hierView (expandFrom 0 blocks)).map Prod.fst =
        (chainScan none [] (expandFrom 0 blocks)).map Prod.fst := by
      rw [hhv, List.map_map]
      rfl
    have h1 : alookup (hierView (expandFrom 0 blocks)) b.1.1 =
        some (chainResidues
          ((expandFrom 0 blocks).all (fun a => a.icode = "")) as) := by
      refine alookup_of_mem_nodup _ _ _ ?_ ?_
      · rw [hhv]
        exact List.mem_map.mpr ⟨(b.1.1, as), he, rfl⟩
      · rw [hvfst]
        exact hknd
    have hfe : as = (expandFrom 0 blocks).filter (fun x => x.chid = b.1.1) :=
      (chainScan_mem (expandFrom 0 blocks) none [] hinv b.1.1 as he).2
    have h2 : alookup (csegs 0 b.1.1 blocks) (b.1.2.1, b.1.2.2) =
        some (blockAtoms (offsetOf blocks b.1) b.1 b.2) := by
      refine alookup_of_mem_nodup _ _ _ ?_ (csegs_keys_nodup _ blocks 0 hnd)
      have hm := csegs_mem_block b.1.1 blocks 0 b.1 b.2 hb hnd rfl
      rw [Nat.zero_add] at hm
      exact hm
    rw [hierGetResidue, h1]
    simp only [Option.bind]
    rw [hfe, chainResidues_eq_csegs blocks b.1.1 hpos hnd, h2]
    simp only [Option.map]
    rw [blockAtoms_indices]

/-- C6 witness: the four-block store — chains A and B interleaved, one
non-empty insertion code — evaluated through the hierarchy: 4 residues,
and each triple's member indices are its contiguous run. -/
theorem C6_witness :
    (∀ b ∈ C6blocks, 0 < b.2) ∧ (C6blocks.map Prod.fst).Nodup ∧
    (hierNumResidues (hierView (expandFrom 0 C6blocks)) = C6blocks.length ∧
     ∀ b ∈ C6blocks,
       hierGetResidue (hierView (expandFrom 0 C6blocks)) b.1.1 b.1.2.1
           b.1.2.2 =
         some (List.range' (offsetOf C6blocks b.1) b.2)) :=
  ⟨by decide, by decide, C6_hierarchy C6blocks (by decide) (by decide)⟩

end ProDyAtomic
